import Mathlib

/-!
Verification development for the `liteconf` configuration-composition library.

Values parsed from configuration files are modelled by the inductive type
`Val`; Python `dict`s become association lists (`Tree`) that keep insertion
order and have pairwise-distinct keys (Python dictionaries cannot hold a
key twice).  Python floats are represented by the literal text that produced
them: no claim below compares float values numerically.

Exceptions are modelled by the `LcError` type, one constructor per exception
class of `liteconf.exceptions` / `liteconf.errors`, plus `typeErr` standing
for the builtin `TypeError` / `AttributeError` that CPython raises when the
source indexes or calls `setdefault` on a non-mapping value.
-/

namespace LiteConf

inductive Val where
  | vnull : Val
  | vbool : Bool → Val
  | vint : Int → Val
  | vfloat : String → Val
  | vstr : String → Val
  | vseq : List Val → Val
  | vmap : List (String × Val) → Val

abbrev Tree := List (String × Val)

/-- Lookup in a Python dict modelled as an association list (first match). -/
def lookup : Tree → String → Option Val
  | [], _ => none
  | (k, v) :: rest, key => if k = key then some v else lookup rest key

/-- Python `d[key] = v`: replace the value in place if the key is present
(keeping its position), otherwise append the new pair at the end. -/
def setKey : Tree → String → Val → Tree
  | [], key, v => [(key, v)]
  | (k, w) :: rest, key, v =>
    if k = key then (key, v) :: rest else (k, w) :: setKey rest key v

inductive LcError where
  | liteConfError : String → LcError
  | configNotFoundError : String → LcError
  | unsupportedFormatError : String → LcError
  | interpolationError : String → LcError
  | validationError : String → LcError
  | valueError : String → LcError
  | typeErr : LcError
deriving Repr, DecidableEq

/-- A single-quote character, written via its code point so that no bare
apostrophe appears inside string literals of this file. -/
def sq : String := String.singleton (Char.ofNat 39)

/-- Python `f"...'{x}'..."` quoting used in error messages. -/
def quoted (s : String) : String := sq ++ s ++ sq

/-- `key in base and isinstance(base[key], MutableMapping)`: the value at
`k`, provided there is one and it is a mapping. -/
def getMap (t : Tree) (k : String) : Option Tree :=
  match lookup t k with
  | some (.vmap m) => some m
  | _ => none

namespace Merger

mutual

/-- `liteconf.merger.deep_merge`: return a deep-merged mapping without
mutating the inputs.  `merged = deepcopy(dict(base))` is the identity at
this structural level (the heap-level model in `HeapModel` below accounts
for the copying); the loop over `override.items()` becomes recursion over
the association list. -/
def deep_merge : Tree → Tree → Tree
  | base, [] => base
  | base, (k, v) :: rest => deep_merge (mergeItem base k v) rest

/-- One iteration of the loop: if the key is already bound to a mapping in
the accumulator and the overlay value is a mapping, recurse; otherwise the
(deep-copied) overlay value replaces whatever was there. -/
def mergeItem (base : Tree) (k : String) : Val → Tree
  | .vmap o =>
    match getMap base k with
    | some m => setKey base k (.vmap (deep_merge m o))
    | none => setKey base k (.vmap o)
  | v => setKey base k v

end

end Merger

namespace Core

mutual

/-- `liteconf.core.deep_merge`: the in-place variant.  Its functional
denotation (the tree held by `base` when the call returns) follows the same
recursion; the mutation itself is studied in the heap model below. -/
def deep_merge : Tree → Tree → Tree
  | base, [] => base
  | base, (k, v) :: rest => deep_merge (mergeItem base k v) rest

/-- One iteration of `core.deep_merge`'s loop. -/
def mergeItem (base : Tree) (k : String) : Val → Tree
  | .vmap o =>
    match getMap base k with
    | some m => setKey base k (.vmap (deep_merge m o))
    | none => setKey base k (.vmap o)
  | v => setKey base k v

end

end Core

section TreeLemmas

theorem lookup_setKey_same (t : Tree) (k : String) (v : Val) :
    lookup (setKey t k v) k = some v := by
  induction t with
  | nil => simp [setKey, lookup]
  | cons hd rest ih =>
    obtain ⟨k', w⟩ := hd
    by_cases h : k' = k
    · simp [setKey, h, lookup]
    · simp [setKey, h, lookup, ih]

theorem lookup_setKey_other (t : Tree) (k k' : String) (v : Val) (h : k' ≠ k) :
    lookup (setKey t k v) k' = lookup t k' := by
  induction t with
  | nil => simp [setKey, lookup, Ne.symm h]
  | cons hd rest ih =>
    obtain ⟨k₀, w⟩ := hd
    by_cases h₀ : k₀ = k
    · subst h₀
      simp [setKey, lookup, Ne.symm h]
    · simp [setKey, h₀, lookup, ih]

theorem setKey_append_of_not_mem (t : Tree) (k : String) (v : Val)
    (h : lookup t k = none) : setKey t k v = t ++ [(k, v)] := by
  induction t with
  | nil => simp [setKey]
  | cons hd rest ih =>
    obtain ⟨k₀, w⟩ := hd
    by_cases h₀ : k₀ = k
    · simp [lookup, h₀] at h
    · simp [lookup, h₀] at h
      simp [setKey, h₀, ih h]

end TreeLemmas

section MergeLemmas

theorem lookup_eq_none_of_not_mem (t : Tree) (k : String)
    (h : k ∉ t.map Prod.fst) : lookup t k = none := by
  induction t with
  | nil => rfl
  | cons hd rest ih =>
    obtain ⟨k₀, w⟩ := hd
    simp only [List.map_cons, List.mem_cons] at h
    push_neg at h
    simp [lookup, Ne.symm h.1, ih h.2]

/-- How one overlay entry combines with the value the accumulator already
holds at that key: recurse when both sides are mappings, otherwise the
overlay value wins wholesale. -/
def mergeVal (a : Option Val) : Val → Val
  | .vmap o =>
    match a with
    | some (.vmap m) => .vmap (Merger.deep_merge m o)
    | _ => .vmap o
  | v => v

theorem mergeItem_eq (A : Tree) (k : String) (v : Val) :
    Merger.mergeItem A k v = setKey A k (mergeVal (lookup A k) v) := by
  cases v <;> rw [Merger.mergeItem] <;> try rfl
  any_goals (intro o ho; exact Val.noConfusion ho)
  case vmap o =>
    unfold getMap mergeVal
    rcases h : lookup A k with _ | w
    · rfl
    · cases w <;> rfl

theorem merger_deep_merge_nil (A : Tree) : Merger.deep_merge A [] = A := by
  rw [Merger.deep_merge]

theorem merger_deep_merge_cons (A : Tree) (k : String) (v : Val) (rest : Tree) :
    Merger.deep_merge A ((k, v) :: rest) =
      Merger.deep_merge (Merger.mergeItem A k v) rest := by
  rw [Merger.deep_merge]

theorem core_deep_merge_nil (A : Tree) : Core.deep_merge A [] = A := by
  rw [Core.deep_merge]

theorem core_deep_merge_cons (A : Tree) (k : String) (v : Val) (rest : Tree) :
    Core.deep_merge A ((k, v) :: rest) =
      Core.deep_merge (Core.mergeItem A k v) rest := by
  rw [Core.deep_merge]

/-- Key-by-key characterisation of `merger.deep_merge`: for a key of the
overlay the result recurses on mapping/mapping pairs and otherwise takes the
overlay value; keys absent from the overlay keep the base value. -/
theorem merger_deep_merge_lookup (B : Tree) : ∀ (A : Tree) (k : String),
    (B.map Prod.fst).Nodup →
    lookup (Merger.deep_merge A B) k =
      match lookup B k with
      | some v => some (mergeVal (lookup A k) v)
      | none => lookup A k := by
  induction B with
  | nil => intro A k _; simp [merger_deep_merge_nil, lookup]
  | cons hd rest ih =>
    intro A k hnd
    obtain ⟨k₀, v₀⟩ := hd
    simp only [List.map_cons, List.nodup_cons] at hnd
    rw [merger_deep_merge_cons, ih _ _ hnd.2, mergeItem_eq]
    by_cases hk : k = k₀
    · subst hk
      rw [lookup_eq_none_of_not_mem rest k hnd.1]
      simp [lookup, lookup_setKey_same]
    · simp [lookup, Ne.symm hk, lookup_setKey_other A k₀ k _ hk]

theorem lookup_append_single_none (A : Tree) (k k₀ : String) (v₀ : Val)
    (hA : lookup A k = none) (hk₀ : k ≠ k₀) :
    lookup (A ++ [(k₀, v₀)]) k = none := by
  induction A with
  | nil => simp [lookup, Ne.symm hk₀]
  | cons hd rest ih =>
    obtain ⟨k₂, w₂⟩ := hd
    by_cases h₂ : k₂ = k
    · simp [lookup, h₂] at hA
    · simp only [lookup, h₂, if_false, List.cons_append] at hA ⊢
      exact ih hA

theorem merger_deep_merge_append (B : Tree) : ∀ (A : Tree),
    (B.map Prod.fst).Nodup → (∀ k ∈ B.map Prod.fst, lookup A k = none) →
    Merger.deep_merge A B = A ++ B := by
  induction B with
  | nil => intro A _ _; simp [merger_deep_merge_nil]
  | cons hd rest ih =>
    intro A hnd habs
    obtain ⟨k₀, v₀⟩ := hd
    simp only [List.map_cons, List.nodup_cons] at hnd
    have h₀ : lookup A k₀ = none := habs k₀ (by simp)
    rw [merger_deep_merge_cons, mergeItem_eq, h₀]
    have hstep : setKey A k₀ (mergeVal none v₀) = A ++ [(k₀, v₀)] := by
      rw [setKey_append_of_not_mem A k₀ _ h₀]
      cases v₀ <;> rfl
    have habs2 : ∀ k ∈ rest.map Prod.fst, lookup (A ++ [(k₀, v₀)]) k = none := by
      intro k hk
      exact lookup_append_single_none A k k₀ v₀ (habs k (by simp [hk]))
        (fun he => hnd.1 (he ▸ hk))
    rw [hstep, ih (A ++ [(k₀, v₀)]) hnd.2 habs2]
    simp

/-- Variant of `mergeVal` spelled with `core.deep_merge`. -/
def mergeValC (a : Option Val) : Val → Val
  | .vmap o =>
    match a with
    | some (.vmap m) => .vmap (Core.deep_merge m o)
    | _ => .vmap o
  | v => v

theorem core_mergeItem_eq (A : Tree) (k : String) (v : Val) :
    Core.mergeItem A k v = setKey A k (mergeValC (lookup A k) v) := by
  cases v <;> rw [Core.mergeItem] <;> try rfl
  any_goals (intro o ho; exact Val.noConfusion ho)
  case vmap o =>
    unfold getMap mergeValC
    rcases h : lookup A k with _ | w
    · rfl
    · cases w <;> rfl

/-- The two `deep_merge` implementations have the same functional
denotation: the tree `core.deep_merge` leaves in `base` is the tree
`merger.deep_merge` returns. -/
theorem core_eq_merger_aux : ∀ (n : Nat) (B A : Tree), sizeOf B ≤ n →
    Core.deep_merge A B = Merger.deep_merge A B := by
  intro n
  induction n with
  | zero => intro B A h; cases B with
    | nil => rw [core_deep_merge_nil, merger_deep_merge_nil]
    | cons hd rest => simp at h
  | succ n ih =>
    intro B A h
    cases B with
    | nil => rw [core_deep_merge_nil, merger_deep_merge_nil]
    | cons hd rest =>
      obtain ⟨k, v⟩ := hd
      rw [core_deep_merge_cons, merger_deep_merge_cons]
      have hitem : Core.mergeItem A k v = Merger.mergeItem A k v := by
        rw [core_mergeItem_eq, mergeItem_eq]
        cases v <;> try rfl
        case vmap o =>
          unfold mergeValC mergeVal
          rcases hl : lookup A k with _ | w
          · rfl
          · cases w <;> try rfl
            case vmap m =>
              have ho : sizeOf o ≤ n := by simp at h; omega
              show setKey A k (Val.vmap (Core.deep_merge m o)) =
                setKey A k (Val.vmap (Merger.deep_merge m o))
              rw [ih o m ho]
      rw [hitem]
      exact ih rest _ (by simp at h; omega)

end MergeLemmas

/-! ### Placeholder resolution

`core.py` compiles `\$\{(?P<name>[A-Z0-9_]+)(?::-(?P<fallback>[^}]*))?\}`
and `manager.py` compiles `\$\{(?P<name>[A-Z0-9_]+)(?::(?P<default>[^}]*))?\}`;
both call `PLACEHOLDER_PATTERN.sub(repl, value)`.  `re.sub` is modelled by a
left-to-right scanner (`reSub`): at each position it tries the pattern; on a
match it appends the replacement and resumes after the match, otherwise it
copies one character.  The two patterns differ only in the fallback
delimiter (`:-` versus `:`), captured by the two matchers below. -/

def lbrace : Char := Char.ofNat 123

def rbrace : Char := Char.ofNat 125

def isNameChar (c : Char) : Bool := c.isUpper || c.isDigit || c = '_'

/-- Match `core.py`'s `PLACEHOLDER_PATTERN` at the head of the input:
`${NAME}` or `${NAME:-fallback}` with `NAME` a nonempty run of `[A-Z0-9_]`
and the fallback running to the first closing brace.  Returns the name, the
optional fallback and the input remaining after the match. -/
def tryMatchCore : List Char → Option (String × Option String × List Char)
  | c₁ :: c₂ :: rest =>
    if c₁ = '$' ∧ c₂ = lbrace then
      let nm := rest.takeWhile isNameChar
      if nm.isEmpty then none
      else
        match rest.dropWhile isNameChar with
        | d :: r₂ =>
          if d = rbrace then some (String.mk nm, none, r₂)
          else if d = ':' then
            match r₂ with
            | e :: r₃ =>
              if e = '-' then
                match r₃.dropWhile (fun c => c ≠ rbrace) with
                | _ :: r₄ =>
                  some (String.mk nm, some (String.mk (r₃.takeWhile (fun c => c ≠ rbrace))), r₄)
                | [] => none
              else none
            | [] => none
          else none
        | [] => none
    else none
  | _ => none

/-- Match `manager.py`'s `PLACEHOLDER_PATTERN` at the head of the input:
`${NAME}` or `${NAME:default}` (a single colon starts the default clause). -/
def tryMatchMgr : List Char → Option (String × Option String × List Char)
  | c₁ :: c₂ :: rest =>
    if c₁ = '$' ∧ c₂ = lbrace then
      let nm := rest.takeWhile isNameChar
      if nm.isEmpty then none
      else
        match rest.dropWhile isNameChar with
        | d :: r₂ =>
          if d = rbrace then some (String.mk nm, none, r₂)
          else if d = ':' then
            match r₂.dropWhile (fun c => c ≠ rbrace) with
            | _ :: r₃ =>
              some (String.mk nm, some (String.mk (r₂.takeWhile (fun c => c ≠ rbrace))), r₃)
            | [] => none
          else none
        | [] => none
    else none
  | _ => none

/-- Lookup in a string-to-string mapping (`env_lookup` / `environ`). -/
def lookupStr : List (String × String) → String → Option String
  | [], _ => none
  | (k, v) :: rest, key => if k = key then some v else lookupStr rest key

section ReSub

variable (matcher : List Char → Option (String × Option String × List Char))
variable (repl : String → Option String → Except LcError String)

/-- The scanning loop of `re.sub` with a fallible replacement function.
The fuel argument only serves totality: one unit is spent per scanned
position, so fuel equal to the input length (as passed by `reSub`) is never
exhausted for a matcher that consumes at least one character. -/
def substGo : Nat → List Char → Except LcError (List Char)
  | _, [] => .ok []
  | 0, l => .ok l
  | fuel + 1, c :: cs =>
    match matcher (c :: cs) with
    | some (n, fb, rest) =>
      match repl n fb with
      | .ok s => (substGo fuel rest).map (fun tail => s.data ++ tail)
      | .error e => .error e
    | none => (substGo fuel cs).map (fun tail => c :: tail)

/-- `PLACEHOLDER_PATTERN.sub(repl, value)`. -/
def reSub (l : List Char) : Except LcError (List Char) := substGo matcher repl l.length l

end ReSub

/-- The exception `core.resolve_placeholders` raises for a missing variable
`n`: the base class `LiteConfError`, with a message naming the variable. -/
def coreErrOf (n : String) : LcError :=
  .liteConfError ("Environment variable " ++ quoted n ++ " is required but not set.")

/-- The exception `manager._resolve_value` raises for a missing variable
`n`: `InterpolationError`, with a message naming the variable. -/
def mgrErrOf (n : String) : LcError :=
  .interpolationError ("Environment variable " ++ quoted n ++ " not found")

namespace Core

/-- The `repl` closure inside `core.resolve_placeholders`: environment value
if the name is bound (even to the empty string), else the fallback text if a
fallback clause was present, else a hard failure. -/
def resolveOcc (env : List (String × String)) (n : String) (fb : Option String) :
    Except LcError String :=
  match lookupStr env n with
  | some v => .ok v
  | none =>
    match fb with
    | some f => .ok f
    | none => .error (coreErrOf n)

/-- Placeholder substitution over one string scalar, as performed by
`core.resolve_placeholders`. -/
def subString (env : List (String × String)) (s : String) : Except LcError String :=
  (reSub tryMatchCore (resolveOcc env) s.data).map String.mk

mutual

/-- `core.resolve_placeholders`: recurse over mappings and sequences,
substitute in string scalars, leave every other scalar untouched. -/
def resolve_placeholders (env : List (String × String)) : Val → Except LcError Val
  | .vmap m => (resolveTree env m).map Val.vmap
  | .vseq xs => (resolveSeq env xs).map Val.vseq
  | .vstr s => (subString env s).map Val.vstr
  | v => .ok v

def resolveTree (env : List (String × String)) : Tree → Except LcError Tree
  | [] => .ok []
  | (k, v) :: rest =>
    match resolve_placeholders env v with
    | .error e => .error e
    | .ok v' =>
      match resolveTree env rest with
      | .error e => .error e
      | .ok rest' => .ok ((k, v') :: rest')

def resolveSeq (env : List (String × String)) : List Val → Except LcError (List Val)
  | [] => .ok []
  | v :: rest =>
    match resolve_placeholders env v with
    | .error e => .error e
    | .ok v' =>
      match resolveSeq env rest with
      | .error e => .error e
      | .ok rest' => .ok (v' :: rest')

end

end Core

namespace Manager

/-- The `replace` closure inside `manager._resolve_value`; this path raises
`InterpolationError`. -/
def resolveOcc (environ : List (String × String)) (n : String) (fb : Option String) :
    Except LcError String :=
  match lookupStr environ n with
  | some v => .ok v
  | none =>
    match fb with
    | some f => .ok f
    | none => .error (mgrErrOf n)

/-- `manager._resolve_value`: non-strings pass through, strings go through
`PLACEHOLDER_PATTERN.sub`. -/
def _resolve_value (environ : List (String × String)) : Val → Except LcError Val
  | .vstr s => (reSub tryMatchMgr (resolveOcc environ) s.data).map (fun l => .vstr (String.mk l))
  | v => .ok v

end Manager

/-! ### Decomposition of a string into literal text and placeholders

A `Seg` list describes a string as alternating literal chunks and
placeholder tokens; `specResolve` is the resolution procedure exactly as the
specification words it (per occurrence: environment value verbatim if bound,
else fallback text verbatim if a fallback clause is present, else fail
naming the variable), with the missing variable name as the error. -/

inductive Seg where
  | lit : String → Seg
  | ph : String → Option String → Seg

def renderSegData (delim : List Char) : Seg → List Char
  | .lit s => s.data
  | .ph n none => '$' :: lbrace :: (n.data ++ [rbrace])
  | .ph n (some f) => '$' :: lbrace :: (n.data ++ delim ++ f.data ++ [rbrace])

def renderData (delim : List Char) : List Seg → List Char
  | [] => []
  | s :: rest => renderSegData delim s ++ renderData delim rest

/-- Rendering with `core.py`'s `:-` fallback delimiter. -/
def renderCore (segs : List Seg) : String := String.mk (renderData [':', '-'] segs)

/-- Rendering with `manager.py`'s `:` fallback delimiter. -/
def renderMgr (segs : List Seg) : String := String.mk (renderData [':'] segs)

/-- Well-formedness of a segment: literals contain no dollar sign, names are
nonempty runs of `[A-Z0-9_]`, fallback texts contain no closing brace. -/
def segWF : Seg → Bool
  | .lit s => s.data.all (fun c => c ≠ '$')
  | .ph n fb =>
    (!n.data.isEmpty) && n.data.all isNameChar &&
      (match fb with
       | some f => f.data.all (fun c => c ≠ rbrace)
       | none => true)

/-- Resolution as the specification describes it, independent of either
implementation; an error carries the name of the missing variable. -/
def specResolve (env : List (String × String)) : List Seg → Except String String
  | [] => .ok ""
  | .lit s :: rest => (specResolve env rest).map (fun t => s ++ t)
  | .ph n fb :: rest =>
    match lookupStr env n with
    | some v => (specResolve env rest).map (fun t => v ++ t)
    | none =>
      match fb with
      | some f => (specResolve env rest).map (fun t => f ++ t)
      | none => .error n

section ScannerLemmas

theorem takeWhile_append_all (p : Char → Bool) (xs ys : List Char)
    (h : ∀ x ∈ xs, p x = true) : (xs ++ ys).takeWhile p = xs ++ ys.takeWhile p := by
  induction xs with
  | nil => simp
  | cons x xs ih =>
    have hx : p x = true := h x (by simp)
    simp only [List.cons_append, List.takeWhile_cons, hx, if_true]
    rw [ih (fun y hy => h y (by simp [hy]))]

theorem dropWhile_append_all (p : Char → Bool) (xs ys : List Char)
    (h : ∀ x ∈ xs, p x = true) : (xs ++ ys).dropWhile p = ys.dropWhile p := by
  induction xs with
  | nil => simp
  | cons x xs ih =>
    have hx : p x = true := h x (by simp)
    simp only [List.cons_append, List.dropWhile_cons, hx, if_true]
    exact ih (fun y hy => h y (by simp [hy]))

theorem length_dropWhile_le (p : Char → Bool) (l : List Char) :
    (l.dropWhile p).length ≤ l.length := by
  induction l with
  | nil => simp
  | cons x xs ih =>
    simp only [List.dropWhile_cons]
    split
    · simp only [List.length_cons]; omega
    · simp

theorem tryMatchCore_shrinks : ∀ (l : List Char) (n : String) (fb : Option String)
    (r : List Char), tryMatchCore l = some (n, fb, r) → r.length < l.length := by
  intro l n fb r h
  match l with
  | [] => simp [tryMatchCore] at h
  | [c] => simp [tryMatchCore] at h
  | c₁ :: c₂ :: rest =>
    have hdw : (rest.dropWhile isNameChar).length ≤ rest.length := length_dropWhile_le _ _
    simp only [tryMatchCore] at h
    split at h
    case isFalse => exact absurd h (by simp)
    split at h
    case isTrue => exact absurd h (by simp)
    split at h
    case h_2 => exact absurd h (by simp)
    rename_i d r₂ heq
    rw [heq] at hdw
    simp only [List.length_cons] at hdw
    split at h
    · simp only [Option.some.injEq, Prod.mk.injEq] at h
      obtain ⟨h₁, h₂, h₃⟩ := h
      subst h₃
      simp only [List.length_cons]
      omega
    · split at h
      case isFalse => exact absurd h (by simp)
      rcases r₂ with _ | ⟨e, r₃⟩
      · exact absurd h (by simp)
      · split at h
        case h_2 => exact absurd h (by simp)
        rename_i g r₄ heq₃
        injection heq₃ with hg hr
        subst hg
        subst hr
        split at h
        case isFalse => exact absurd h (by simp)
        have hdw₂ : (r₃.dropWhile (fun c => c ≠ rbrace)).length ≤ r₃.length :=
          length_dropWhile_le _ _
        split at h
        case h_2 => exact absurd h (by simp)
        rename_i g₂ r₅ heq₄
        rw [heq₄] at hdw₂
        simp only [List.length_cons] at hdw hdw₂ ⊢
        simp only [Option.some.injEq, Prod.mk.injEq] at h
        obtain ⟨h₁, h₂, h₃⟩ := h
        subst h₃
        omega

theorem tryMatchMgr_shrinks : ∀ (l : List Char) (n : String) (fb : Option String)
    (r : List Char), tryMatchMgr l = some (n, fb, r) → r.length < l.length := by
  intro l n fb r h
  match l with
  | [] => simp [tryMatchMgr] at h
  | [c] => simp [tryMatchMgr] at h
  | c₁ :: c₂ :: rest =>
    have hdw : (rest.dropWhile isNameChar).length ≤ rest.length := length_dropWhile_le _ _
    simp only [tryMatchMgr] at h
    split at h
    case isFalse => exact absurd h (by simp)
    split at h
    case isTrue => exact absurd h (by simp)
    split at h
    case h_2 => exact absurd h (by simp)
    rename_i d r₂ heq
    rw [heq] at hdw
    simp only [List.length_cons] at hdw
    split at h
    · simp only [Option.some.injEq, Prod.mk.injEq] at h
      obtain ⟨h₁, h₂, h₃⟩ := h
      subst h₃
      simp only [List.length_cons]
      omega
    · split at h
      case isFalse => exact absurd h (by simp)
      have hdw₂ : (r₂.dropWhile (fun c => c ≠ rbrace)).length ≤ r₂.length :=
        length_dropWhile_le _ _
      split at h
      case h_2 => exact absurd h (by simp)
      rename_i g r₃ heq₂
      rw [heq₂] at hdw₂
      simp only [List.length_cons] at hdw₂ ⊢
      simp only [Option.some.injEq, Prod.mk.injEq] at h
      obtain ⟨h₁, h₂, h₃⟩ := h
      subst h₃
      omega

section ReSubProps

variable (matcher : List Char → Option (String × Option String × List Char))
variable (repl : String → Option String → Except LcError String)

theorem substGo_adequate
    (hm : ∀ l n fb r, matcher l = some (n, fb, r) → r.length < l.length) :
    ∀ (N : Nat) (l : List Char) (f₁ f₂ : Nat), l.length ≤ N → l.length ≤ f₁ →
      l.length ≤ f₂ → substGo matcher repl f₁ l = substGo matcher repl f₂ l := by
  intro N
  induction N with
  | zero =>
    intro l f₁ f₂ hN _ _
    have hl : l = [] := List.eq_nil_of_length_eq_zero (Nat.le_zero.mp hN)
    subst hl
    cases f₁ <;> cases f₂ <;> rfl
  | succ N ih =>
    intro l f₁ f₂ hN h₁ h₂
    cases l with
    | nil => cases f₁ <;> cases f₂ <;> rfl
    | cons c cs =>
      simp only [List.length_cons] at hN h₁ h₂
      obtain ⟨f₁', rfl⟩ : ∃ g, f₁ = g + 1 := ⟨f₁ - 1, by omega⟩
      obtain ⟨f₂', rfl⟩ : ∃ g, f₂ = g + 1 := ⟨f₂ - 1, by omega⟩
      simp only [substGo]
      cases hmm : matcher (c :: cs) with
      | some res =>
        obtain ⟨n, fb, rest⟩ := res
        have hlt : rest.length < cs.length + 1 := hm _ _ _ _ hmm
        show (match repl n fb with
              | Except.ok s => Except.map (fun tail => s.data ++ tail)
                  (substGo matcher repl f₁' rest)
              | Except.error e => Except.error e) =
            (match repl n fb with
              | Except.ok s => Except.map (fun tail => s.data ++ tail)
                  (substGo matcher repl f₂' rest)
              | Except.error e => Except.error e)
        cases repl n fb with
        | ok s => rw [ih rest f₁' f₂' (by omega) (by omega) (by omega)]
        | error e => rfl
      | none =>
        show Except.map (fun tail => c :: tail) (substGo matcher repl f₁' cs) =
            Except.map (fun tail => c :: tail) (substGo matcher repl f₂' cs)
        rw [ih cs f₁' f₂' (by omega) (by omega) (by omega)]

theorem substGo_lit
    (hfail : ∀ (c : Char) (cs : List Char), c ≠ '$' → matcher (c :: cs) = none) :
    ∀ (s rest : List Char) (f : Nat), (∀ c ∈ s, c ≠ '$') →
      substGo matcher repl (s.length + f) (s ++ rest) =
        (substGo matcher repl f rest).map (fun t => s ++ t) := by
  intro s
  induction s with
  | nil =>
    intro rest f _
    simp only [List.nil_append, List.length_nil, Nat.zero_add]
    cases substGo matcher repl f rest <;> rfl
  | cons c s ih =>
    intro rest f hnd
    have hc : c ≠ '$' := hnd c (by simp)
    simp only [List.cons_append, List.length_cons]
    have harith : s.length + 1 + f = (s.length + f) + 1 := by omega
    rw [harith]
    simp only [substGo, hfail c _ hc]
    show Except.map (fun tail => c :: tail)
        (substGo matcher repl (s.length + f) (s ++ rest)) = _
    rw [ih rest f (fun x hx => hnd x (by simp [hx]))]
    cases substGo matcher repl f rest <;> rfl

theorem reSub_cons_match
    (hm : ∀ l n fb r, matcher l = some (n, fb, r) → r.length < l.length)
    (c : Char) (cs rest : List Char) (n : String) (fb : Option String)
    (hmatch : matcher (c :: cs) = some (n, fb, rest)) :
    reSub matcher repl (c :: cs) =
      match repl n fb with
      | .ok s => (reSub matcher repl rest).map (fun t => s.data ++ t)
      | .error e => .error e := by
  unfold reSub
  have hlt : rest.length < cs.length + 1 := by
    have := hm _ _ _ _ hmatch
    simpa using this
  simp only [List.length_cons, substGo]
  rw [hmatch]
  show (match repl n fb with
        | Except.ok s => Except.map (fun tail => s.data ++ tail)
            (substGo matcher repl cs.length rest)
        | Except.error e => Except.error e) = _
  cases hr : repl n fb with
  | ok s =>
    show Except.map (fun tail => s.data ++ tail) (substGo matcher repl cs.length rest) =
        Except.map (fun t => s.data ++ t) (reSub matcher repl rest)
    rw [substGo_adequate matcher repl hm cs.length rest cs.length rest.length
      (by omega) (by omega) (by omega)]
    rfl
  | error e => rfl

end ReSubProps

theorem tryMatchCore_fail (c : Char) (cs : List Char) (hc : c ≠ '$') :
    tryMatchCore (c :: cs) = none := by
  cases cs with
  | nil => rfl
  | cons c₂ r => simp [tryMatchCore, hc]

theorem tryMatchMgr_fail (c : Char) (cs : List Char) (hc : c ≠ '$') :
    tryMatchMgr (c :: cs) = none := by
  cases cs with
  | nil => rfl
  | cons c₂ r => simp [tryMatchMgr, hc]

theorem stringmk_data (n : String) : String.mk n.data = n := rfl

theorem tryMatchCore_render_none (n : String) (rest : List Char)
    (hne : n.data ≠ []) (hall : ∀ c ∈ n.data, isNameChar c = true) :
    tryMatchCore ('$' :: lbrace :: (n.data ++ rbrace :: rest)) = some (n, none, rest) := by
  have htw : (n.data ++ rbrace :: rest).takeWhile isNameChar = n.data := by
    rw [takeWhile_append_all _ _ _ hall]
    simp [List.takeWhile_cons, show isNameChar rbrace = false from by decide]
  have hdw : (n.data ++ rbrace :: rest).dropWhile isNameChar = rbrace :: rest := by
    rw [dropWhile_append_all _ _ _ hall]
    simp [List.dropWhile_cons, show isNameChar rbrace = false from by decide]
  have hie : n.data.isEmpty = false := by
    cases hnd : n.data
    · exact absurd hnd hne
    · rfl
  simp only [tryMatchCore, htw, hdw, hie, stringmk_data]
  simp

theorem tryMatchCore_render_some (n f : String) (rest : List Char)
    (hne : n.data ≠ []) (hall : ∀ c ∈ n.data, isNameChar c = true)
    (hf : ∀ c ∈ f.data, c ≠ rbrace) :
    tryMatchCore ('$' :: lbrace :: (n.data ++ ':' :: '-' :: (f.data ++ rbrace :: rest))) =
      some (n, some f, rest) := by
  have htw : (n.data ++ ':' :: '-' :: (f.data ++ rbrace :: rest)).takeWhile isNameChar
      = n.data := by
    rw [takeWhile_append_all _ _ _ hall]
    simp [List.takeWhile_cons, show isNameChar ':' = false from by decide]
  have hdw : (n.data ++ ':' :: '-' :: (f.data ++ rbrace :: rest)).dropWhile isNameChar
      = ':' :: '-' :: (f.data ++ rbrace :: rest) := by
    rw [dropWhile_append_all _ _ _ hall]
    simp [List.dropWhile_cons, show isNameChar ':' = false from by decide]
  have hf2 : ∀ c ∈ f.data, (fun c => decide (c ≠ rbrace)) c = true := by
    intro c hc
    simp [hf c hc]
  have htw₂ : (f.data ++ rbrace :: rest).takeWhile (fun c => c ≠ rbrace) = f.data := by
    rw [takeWhile_append_all _ _ _ hf2]
    simp [List.takeWhile_cons]
  have hdw₂ : (f.data ++ rbrace :: rest).dropWhile (fun c => c ≠ rbrace)
      = rbrace :: rest := by
    rw [dropWhile_append_all _ _ _ hf2]
    simp [List.dropWhile_cons]
  have hie : n.data.isEmpty = false := by
    cases hnd : n.data
    · exact absurd hnd hne
    · rfl
  simp only [tryMatchCore, htw, hdw, hie, htw₂, hdw₂, stringmk_data]
  simp [show (':' : Char) ≠ rbrace from by decide]

theorem tryMatchMgr_render_none (n : String) (rest : List Char)
    (hne : n.data ≠ []) (hall : ∀ c ∈ n.data, isNameChar c = true) :
    tryMatchMgr ('$' :: lbrace :: (n.data ++ rbrace :: rest)) = some (n, none, rest) := by
  have htw : (n.data ++ rbrace :: rest).takeWhile isNameChar = n.data := by
    rw [takeWhile_append_all _ _ _ hall]
    simp [List.takeWhile_cons, show isNameChar rbrace = false from by decide]
  have hdw : (n.data ++ rbrace :: rest).dropWhile isNameChar = rbrace :: rest := by
    rw [dropWhile_append_all _ _ _ hall]
    simp [List.dropWhile_cons, show isNameChar rbrace = false from by decide]
  have hie : n.data.isEmpty = false := by
    cases hnd : n.data
    · exact absurd hnd hne
    · rfl
  simp only [tryMatchMgr, htw, hdw, hie, stringmk_data]
  simp

theorem tryMatchMgr_render_some (n f : String) (rest : List Char)
    (hne : n.data ≠ []) (hall : ∀ c ∈ n.data, isNameChar c = true)
    (hf : ∀ c ∈ f.data, c ≠ rbrace) :
    tryMatchMgr ('$' :: lbrace :: (n.data ++ ':' :: (f.data ++ rbrace :: rest))) =
      some (n, some f, rest) := by
  have htw : (n.data ++ ':' :: (f.data ++ rbrace :: rest)).takeWhile isNameChar
      = n.data := by
    rw [takeWhile_append_all _ _ _ hall]
    simp [List.takeWhile_cons, show isNameChar ':' = false from by decide]
  have hdw : (n.data ++ ':' :: (f.data ++ rbrace :: rest)).dropWhile isNameChar
      = ':' :: (f.data ++ rbrace :: rest) := by
    rw [dropWhile_append_all _ _ _ hall]
    simp [List.dropWhile_cons, show isNameChar ':' = false from by decide]
  have hf2 : ∀ c ∈ f.data, (fun c => decide (c ≠ rbrace)) c = true := by
    intro c hc
    simp [hf c hc]
  have htw₂ : (f.data ++ rbrace :: rest).takeWhile (fun c => c ≠ rbrace) = f.data := by
    rw [takeWhile_append_all _ _ _ hf2]
    simp [List.takeWhile_cons]
  have hdw₂ : (f.data ++ rbrace :: rest).dropWhile (fun c => c ≠ rbrace)
      = rbrace :: rest := by
    rw [dropWhile_append_all _ _ _ hf2]
    simp [List.dropWhile_cons]
  have hie : n.data.isEmpty = false := by
    cases hnd : n.data
    · exact absurd hnd hne
    · rfl
  simp only [tryMatchMgr, htw, hdw, hie, htw₂, hdw₂, stringmk_data]
  simp [show (':' : Char) ≠ rbrace from by decide]

end ScannerLemmas

section RenderSpec

/-- Embeds a spec-side result into the implementation's result type: a
resolved string becomes its character list, a missing variable becomes the
given exception. -/
def liftSpec (errOf : String → LcError) : Except String String → Except LcError (List Char)
  | .ok s => .ok s.data
  | .error n => .error (errOf n)

theorem segWF_lit (s : String) (h : segWF (.lit s) = true) : ∀ c ∈ s.data, c ≠ '$' := by
  simp [segWF, List.all_eq_true] at h
  exact h

theorem segWF_name (n : String) (fb : Option String) (h : segWF (.ph n fb) = true) :
    n.data ≠ [] ∧ ∀ c ∈ n.data, isNameChar c = true := by
  cases fb with
  | none =>
    simp only [segWF, Bool.and_true, Bool.and_eq_true, Bool.not_eq_true'] at h
    refine ⟨fun hnil => ?_, ?_⟩
    · rw [hnil] at h
      simp at h
    · exact fun c hc => (List.all_eq_true.mp h.2) c hc
  | some f =>
    simp only [segWF, Bool.and_eq_true, Bool.not_eq_true'] at h
    refine ⟨fun hnil => ?_, ?_⟩
    · rw [hnil] at h
      simp at h
    · exact fun c hc => (List.all_eq_true.mp h.1.2) c hc

theorem segWF_fb (n f : String) (h : segWF (.ph n (some f)) = true) :
    ∀ c ∈ f.data, c ≠ rbrace := by
  simp only [segWF, Bool.and_eq_true] at h
  intro c hc
  have := (List.all_eq_true.mp h.2) c hc
  simpa using this

theorem subst_render_core (env : List (String × String)) :
    ∀ segs : List Seg, (∀ s ∈ segs, segWF s = true) →
      reSub tryMatchCore (Core.resolveOcc env) (renderData [':', '-'] segs) =
        liftSpec coreErrOf (specResolve env segs) := by
  intro segs
  induction segs with
  | nil => intro _; rfl
  | cons seg rest ih =>
    intro hwf
    have hrest : ∀ s ∈ rest, segWF s = true :=
      fun s hs => hwf s (List.mem_cons_of_mem _ hs)
    have hih := ih hrest
    cases seg with
    | lit s =>
      have hnd : ∀ c ∈ s.data, c ≠ '$' := segWF_lit s (hwf _ (by simp))
      show reSub tryMatchCore (Core.resolveOcc env)
          (s.data ++ renderData [':', '-'] rest) = _
      unfold reSub
      rw [List.length_append]
      rw [substGo_lit tryMatchCore (Core.resolveOcc env) tryMatchCore_fail s.data _ _ hnd]
      show (reSub tryMatchCore (Core.resolveOcc env)
          (renderData [':', '-'] rest)).map (fun t => s.data ++ t) = _
      rw [hih]
      simp only [specResolve]
      cases specResolve env rest with
      | ok t => rfl
      | error e => rfl
    | ph n fb =>
      obtain ⟨hne, hall⟩ := segWF_name n fb (hwf _ (by simp))
      cases fb with
      | none =>
        have hshape : renderData [':', '-'] (.ph n none :: rest) =
            '$' :: lbrace :: (n.data ++ rbrace :: renderData [':', '-'] rest) := by
          simp [renderData, renderSegData]
        rw [hshape]
        rw [reSub_cons_match tryMatchCore (Core.resolveOcc env) tryMatchCore_shrinks _ _ _ _ _
          (tryMatchCore_render_none n _ hne hall)]
        simp only [Core.resolveOcc, specResolve]
        cases hl : lookupStr env n with
        | some v =>
          show (reSub tryMatchCore (Core.resolveOcc env)
              (renderData [':', '-'] rest)).map (fun t => v.data ++ t) =
            liftSpec coreErrOf ((specResolve env rest).map (fun t => v ++ t))
          rw [hih]
          cases specResolve env rest <;> rfl
        | none => rfl
      | some f =>
        have hf : ∀ c ∈ f.data, c ≠ rbrace := segWF_fb n f (hwf _ (by simp))
        have hshape : renderData [':', '-'] (.ph n (some f) :: rest) =
            '$' :: lbrace ::
              (n.data ++ ':' :: '-' :: (f.data ++ rbrace :: renderData [':', '-'] rest)) := by
          simp [renderData, renderSegData]
        rw [hshape]
        rw [reSub_cons_match tryMatchCore (Core.resolveOcc env) tryMatchCore_shrinks _ _ _ _ _
          (tryMatchCore_render_some n f _ hne hall hf)]
        simp only [Core.resolveOcc, specResolve]
        cases hl : lookupStr env n with
        | some v =>
          show (reSub tryMatchCore (Core.resolveOcc env)
              (renderData [':', '-'] rest)).map (fun t => v.data ++ t) =
            liftSpec coreErrOf ((specResolve env rest).map (fun t => v ++ t))
          rw [hih]
          cases specResolve env rest <;> rfl
        | none =>
          show (reSub tryMatchCore (Core.resolveOcc env)
              (renderData [':', '-'] rest)).map (fun t => f.data ++ t) =
            liftSpec coreErrOf ((specResolve env rest).map (fun t => f ++ t))
          rw [hih]
          cases specResolve env rest <;> rfl

theorem subst_render_mgr (env : List (String × String)) :
    ∀ segs : List Seg, (∀ s ∈ segs, segWF s = true) →
      reSub tryMatchMgr (Manager.resolveOcc env) (renderData [':'] segs) =
        liftSpec mgrErrOf (specResolve env segs) := by
  intro segs
  induction segs with
  | nil => intro _; rfl
  | cons seg rest ih =>
    intro hwf
    have hrest : ∀ s ∈ rest, segWF s = true :=
      fun s hs => hwf s (List.mem_cons_of_mem _ hs)
    have hih := ih hrest
    cases seg with
    | lit s =>
      have hnd : ∀ c ∈ s.data, c ≠ '$' := segWF_lit s (hwf _ (by simp))
      show reSub tryMatchMgr (Manager.resolveOcc env)
          (s.data ++ renderData [':'] rest) = _
      unfold reSub
      rw [List.length_append]
      rw [substGo_lit tryMatchMgr (Manager.resolveOcc env) tryMatchMgr_fail s.data _ _ hnd]
      show (reSub tryMatchMgr (Manager.resolveOcc env)
          (renderData [':'] rest)).map (fun t => s.data ++ t) = _
      rw [hih]
      simp only [specResolve]
      cases specResolve env rest with
      | ok t => rfl
      | error e => rfl
    | ph n fb =>
      obtain ⟨hne, hall⟩ := segWF_name n fb (hwf _ (by simp))
      cases fb with
      | none =>
        have hshape : renderData [':'] (.ph n none :: rest) =
            '$' :: lbrace :: (n.data ++ rbrace :: renderData [':'] rest) := by
          simp [renderData, renderSegData]
        rw [hshape]
        rw [reSub_cons_match tryMatchMgr (Manager.resolveOcc env) tryMatchMgr_shrinks _ _ _ _ _
          (tryMatchMgr_render_none n _ hne hall)]
        simp only [Manager.resolveOcc, specResolve]
        cases hl : lookupStr env n with
        | some v =>
          show (reSub tryMatchMgr (Manager.resolveOcc env)
              (renderData [':'] rest)).map (fun t => v.data ++ t) =
            liftSpec mgrErrOf ((specResolve env rest).map (fun t => v ++ t))
          rw [hih]
          cases specResolve env rest <;> rfl
        | none => rfl
      | some f =>
        have hf : ∀ c ∈ f.data, c ≠ rbrace := segWF_fb n f (hwf _ (by simp))
        have hshape : renderData [':'] (.ph n (some f) :: rest) =
            '$' :: lbrace ::
              (n.data ++ ':' :: (f.data ++ rbrace :: renderData [':'] rest)) := by
          simp [renderData, renderSegData]
        rw [hshape]
        rw [reSub_cons_match tryMatchMgr (Manager.resolveOcc env) tryMatchMgr_shrinks _ _ _ _ _
          (tryMatchMgr_render_some n f _ hne hall hf)]
        simp only [Manager.resolveOcc, specResolve]
        cases hl : lookupStr env n with
        | some v =>
          show (reSub tryMatchMgr (Manager.resolveOcc env)
              (renderData [':'] rest)).map (fun t => v.data ++ t) =
            liftSpec mgrErrOf ((specResolve env rest).map (fun t => v ++ t))
          rw [hih]
          cases specResolve env rest <;> rfl
        | none =>
          show (reSub tryMatchMgr (Manager.resolveOcc env)
              (renderData [':'] rest)).map (fun t => f.data ++ t) =
            liftSpec mgrErrOf ((specResolve env rest).map (fun t => f ++ t))
          rw [hih]
          cases specResolve env rest <;> rfl

end RenderSpec

/-! ### `namespaces.ConfigView.get` and boolean coercion -/

/-- Python `str.strip()` (ASCII whitespace). -/
def pyStrip (s : String) : String :=
  String.mk ((s.data.dropWhile Char.isWhitespace).reverse.dropWhile Char.isWhitespace).reverse

/-- Python `str.lower()` (ASCII; all compared tokens are ASCII). -/
def pyLower (s : String) : String := String.mk (s.data.map Char.toLower)

/-- Python `str.split(sep)` for a one-character separator, on character
lists: `""` splits to `[""]`, consecutive separators yield empty chunks. -/
def splitChar (sep : Char) : List Char → List (List Char)
  | [] => [[]]
  | c :: rest =>
    let r := splitChar sep rest
    if c = sep then [] :: r
    else
      match r with
      | hd :: tl => (c :: hd) :: tl
      | [] => [[c]]

def pySplit (s : String) (sep : Char) : List String :=
  (splitChar sep s.data).map String.mk

def trueTokens : List String := ["1", "true", "yes", "on"]

def falseTokens : List String := ["0", "false", "no", "off"]

def boolTokenOf (text : String) : Option Bool :=
  if trueTokens.contains text then some true
  else if falseTokens.contains text then some false
  else none

/-- `namespaces._coerce_bool`: a `bool` passes through; otherwise
`str(value).strip().lower()` is compared against the token tables and
anything else raises `ValueError` (modelled as `none`).  `str()` of an
integer is its decimal form and `str(None)` is `"None"`; `str()` of a float
always contains a dot, an exponent, or `inf`/`nan`, and `str()` of a list or
dict starts with a bracket, so those can never equal a token and always
fail. -/
def _coerce_bool : Val → Option Bool
  | .vbool b => some b
  | .vstr s => boolTokenOf (pyLower (pyStrip s))
  | .vint n => boolTokenOf (pyLower (pyStrip (toString n)))
  | .vnull => boolTokenOf (pyLower (pyStrip "None"))
  | _ => none

/-- The `coerce` argument of `ConfigView.get`: the source special-cases
`coerce is bool` and otherwise calls the given type/constructor, catching
`TypeError`/`ValueError` (an arbitrary callable is modelled by a function
into `Option Val`, `none` standing for those exceptions). -/
inductive Coercer where
  | cbool : Coercer
  | cfun : (Val → Option Val) → Coercer

def applyCoercer : Coercer → Val → Option Val
  | .cbool, v => (_coerce_bool v).map Val.vbool
  | .cfun f, v => f v

/-- The `for part in dotted_path.split("."):` loop of `ConfigView.get`;
`none` models the early `return default` taken when a segment is missing or
the current value is not a dict. -/
def getWalk : Val → List String → Option Val
  | cur, [] => some cur
  | cur, p :: rest =>
    match cur with
    | .vmap m =>
      match lookup m p with
      | some v => getWalk v rest
      | none => none
    | _ => none

/-- `namespaces.ConfigView.get(dotted_path, default, coerce)`. -/
def ConfigView.get (data : Tree) (dotted : String) (default : Val)
    (co : Option Coercer) : Except LcError Val :=
  if dotted = "" then .error (.valueError "dotted_path must be provided")
  else
    match getWalk (.vmap data) (pySplit dotted '.') with
    | none => .ok default
    | some cur =>
      match co with
      | none => .ok cur
      | some c =>
        match applyCoercer c cur with
        | some w => .ok w
        | none => .ok default

/-- Modelled from the spec: `get` "walks the dotted path segment by segment
through nested mappings only", failing out on a missing segment or a
non-mapping intermediate — phrased as a monadic fold over the segments. -/
def specWalk (parts : List String) (root : Val) : Option Val :=
  parts.foldlM
    (fun cur p =>
      match cur with
      | .vmap m => lookup m p
      | _ => none) root

/-! ### `sources._coerce_env_value` -/

/-- Python `text.startswith("-")`. -/
def startsDash (s : String) : Bool :=
  match s.data with
  | c :: _ => c = '-'
  | [] => false

/-- Python `str.isdigit` restricted to ASCII digits (non-ASCII digit
characters would be accepted by `isdigit` but then rejected by both `int()`
and `float()`, ending in the same raw-string result). -/
def pyIsDigit (s : String) : Bool := !s.data.isEmpty && s.data.all Char.isDigit

def parseNatDigits (l : List Char) : Nat := l.foldl (fun a c => a * 10 + (c.toNat - 48)) 0

/-- `int(text)` for the strings admitted by the digit test (Python ints are
unbounded, as is `Int`). -/
def pyInt (text : String) : Int :=
  if startsDash text then - (parseNatDigits text.data.tail : Nat)
  else parseNatDigits text.data

/-- Consume `(["_"] digit | digit)*` after an initial digit, as in CPython's
number grammar for `float()` (underscores allowed only between digits). -/
def digitTailGo : Nat → List Char → List Char
  | 0, l => l
  | fuel + 1, l =>
    match l with
    | '_' :: d :: rest => if d.isDigit then digitTailGo fuel rest else '_' :: d :: rest
    | d :: rest => if d.isDigit then digitTailGo fuel rest else d :: rest
    | [] => []

def digitTail (l : List Char) : List Char := digitTailGo l.length l

/-- Consume one `digitpart` (`digit (["_"] digit)*`); `none` if the input
does not start with a digit. -/
def digitPart : List Char → Option (List Char)
  | d :: rest => if d.isDigit then some (digitTail rest) else none
  | [] => none

/-- Consume an optional exponent `("e" [sign] digitpart)` (input already
lower-cased); `none` marks a malformed exponent. -/
def expPart : List Char → Option (List Char)
  | [] => some []
  | e :: rest =>
    if e = 'e' then
      match rest with
      | s :: r₂ => if s = '+' ∨ s = '-' then digitPart r₂ else digitPart rest
      | [] => none
    else some (e :: rest)

/-- Acceptance of CPython's `float()` on an already-stripped string:
optional sign, then `inf`/`infinity`/`nan` (case-insensitive) or
`(digitpart ["." [digitpart]] | "." digitpart) [exponent]`. -/
def pyFloatOK (s : String) : Bool :=
  let l₀ := (pyLower s).data
  let l :=
    match l₀ with
    | c :: r => if c = '+' ∨ c = '-' then r else l₀
    | [] => l₀
  if l = "inf".data ∨ l = "infinity".data ∨ l = "nan".data then true
  else
    let afterMant : Option (List Char) :=
      match digitPart l with
      | some r =>
        match r with
        | '.' :: r₂ =>
          match digitPart r₂ with
          | some r₃ => some r₃
          | none => some r₂
        | _ => some r
      | none =>
        match l with
        | '.' :: r₂ => digitPart r₂
        | _ => none
    match afterMant with
    | some r =>
      match expPart r with
      | some r₂ => r₂.isEmpty
      | none => false
    | none => false

/-- `sources._coerce_env_value`: boolean tokens first, then integer, then
float, else the raw string unchanged. -/
def _coerce_env_value (value : String) : Val :=
  let text := pyStrip value
  let lowered := pyLower text
  if trueTokens.contains lowered then .vbool true
  else if falseTokens.contains lowered then .vbool false
  else if pyIsDigit text || (startsDash text && pyIsDigit (String.mk text.data.tail)) then
    .vint (pyInt text)
  else if pyFloatOK text then .vfloat text
  else .vstr value

/-- Modelled from the spec: "Type inference order: boolean tokens
(`1/true/yes/on` → true, `0/false/no/off` → false, case-insensitive) →
integer (optional leading `-`, all digits) → floating-point → else raw
string."  The float test is shared with the implementation since the spec
does not spell out a float grammar. -/
def specEnvCoerce (value : String) : Val :=
  let text := pyStrip value
  let lowered := pyLower text
  if trueTokens.contains lowered then .vbool true
  else if falseTokens.contains lowered then .vbool false
  else if (let core := if startsDash text then String.mk text.data.tail else text
           !core.data.isEmpty && core.data.all Char.isDigit) then
    .vint (pyInt text)
  else if pyFloatOK text then .vfloat text
  else .vstr value

/-! ### `core.apply_overrides`, `core._assign_dotted`, `core._sanitize_attribute` -/

/-- The keyword list of Python's `keyword.iskeyword`. -/
def pyKeywords : List String :=
  ["False", "None", "True", "and", "as", "assert", "async", "await", "break",
   "class", "continue", "def", "del", "elif", "else", "except", "finally",
   "for", "from", "global", "if", "import", "in", "is", "lambda", "nonlocal",
   "not", "or", "pass", "raise", "return", "try", "while", "with", "yield"]

/-- `core._sanitize_attribute`. -/
def _sanitize_attribute (name : String) : String :=
  let clean := String.mk (name.data.map (fun c => if c = '-' then '_' else if c = ' ' then '_' else c))
  let clean :=
    if (match clean.data with | c :: _ => c.isDigit | [] => false) then "_" ++ clean
    else clean
  let clean := if pyKeywords.contains clean then clean ++ "_" else clean
  if clean = "" then name else clean

/-- `core._assign_dotted`, with the walk over `parts[:-1]` as recursion.
When an intermediate part exists with a non-mapping value (and its sanitized
alias is not bound to a mapping either), `setdefault` hands that value back
and the next loop iteration or the final assignment raises a builtin
`TypeError`/`AttributeError`; those type-dependent builtin errors are
modelled uniformly as `typeErr`. -/
def _assign_dotted (target : Tree) : List String → Val → Except LcError Tree
  | [], _ => .ok target
  | [p], v => .ok (setKey target p v)
  | p :: rest, v =>
    match getMap target p with
    | some m =>
      (match _assign_dotted m rest v with
       | .ok m₂ => .ok (setKey target p (.vmap m₂))
       | .error e => .error e)
    | none =>
      match getMap target (_sanitize_attribute p) with
      | some m =>
        (match _assign_dotted m rest v with
         | .ok m₂ => .ok (setKey target (_sanitize_attribute p) (.vmap m₂))
         | .error e => .error e)
      | none =>
        match lookup target p with
        | some _ => .error .typeErr
        | none =>
          (match _assign_dotted [] rest v with
           | .ok m₂ => .ok (setKey target p (.vmap m₂))
           | .error e => .error e)

mutual

/-- `core.apply_overrides`: mapping values recurse through `setdefault`
(raising `LiteConfError` when the existing value is not a mapping), dotted
keys go through `_assign_dotted`, plain keys are assigned directly. -/
def apply_overrides (target : Tree) : List (String × Val) → Except LcError Tree
  | [] => .ok target
  | (key, v) :: rest =>
    match applyItem target key v with
    | .ok t₂ => apply_overrides t₂ rest
    | .error e => .error e

/-- One `overrides` entry of `core.apply_overrides`'s loop. -/
def applyItem (target : Tree) (key : String) : Val → Except LcError Tree
  | .vmap m =>
    match lookup target key with
    | some (.vmap sm) =>
      match apply_overrides sm m with
      | .ok sm₂ => .ok (setKey target key (.vmap sm₂))
      | .error e => .error e
    | some _ =>
      .error (.liteConfError
        ("Cannot override non-mapping config section " ++ quoted key ++ " with a mapping."))
    | none =>
      match apply_overrides [] m with
      | .ok sm₂ => .ok (setKey target key (.vmap sm₂))
      | .error e => .error e
  | v =>
    if key.data.contains '.' then _assign_dotted target (pySplit key '.') v
    else .ok (setKey target key v)

end

/-! ### `loader.LayeredConfigLoader`

The filesystem is abstracted as a list of files, each an absolute path
(list of segments) plus the value its parsed content denotes (file-format
parsing is delegated to external libraries and out of scope).  A directory
"contains" the files whose path it strictly prefixes, which also makes
`rglob` on a base layer see the files of its environment subdirectory, just
as on a real tree; a missing or empty directory simply contributes no
files. -/

abbrev FileSys := List (List String × Val)

/-- Python `self.env or os.getenv(self.env_var)` (empty strings are falsy). -/
def pyOr (a b : Option String) : Option String :=
  match a with
  | some s => if s = "" then b else some s
  | none => b

/-- Python truthiness of `env_name` in `if env_name:`. -/
def truthy : Option String → Bool
  | some s => s ≠ ""
  | none => false

/-- `loader._expand_layers`: each layer is followed by `layer/envName` when
an environment name is active. -/
def _expand_layers (layers : List (List String)) (env getenvResult : Option String) :
    List (List String) :=
  let envName := pyOr env getenvResult
  layers.foldl
    (fun acc layer =>
      acc ++ [layer] ++ (if truthy envName then [layer ++ [envName.getD ""]] else []))
    []

/-- `pathlib.PurePath.suffix`: the last dot-separated extension, empty for
names with no dot, a leading-dot-only name, or a trailing dot. -/
def pySuffix (name : String) : String :=
  let l := name.data
  match l.reverse.findIdx? (fun c => c = '.') with
  | some r =>
    let i := l.length - 1 - r
    if 0 < i ∧ i < l.length - 1 then String.mk (l.drop i) else ""
  | none => ""

/-- `pathlib.PurePath.stem`. -/
def pyStem (name : String) : String :=
  let suf := pySuffix name
  if suf = "" then name else String.mk (name.data.take (name.data.length - suf.data.length))

/-- The extension filter of `loader._iter_config_files`. -/
def isConfigName (name : String) : Bool :=
  [".yml", ".yaml", ".json", ".toml"].contains (pyLower (pySuffix name))

/-- The path of a file relative to a directory, provided the directory is a
strict prefix of it. -/
def relUnder : List String → List String → Option (List String)
  | [], p => if p.isEmpty then none else some p
  | d :: ds, p :: ps => if d = p then relUnder ds ps else none
  | _ :: _, [] => none

def filesUnder (fs : FileSys) (dir : List String) : FileSys :=
  fs.filterMap (fun f => (relUnder dir f.1).map (fun rel => (rel, f.2)))

def pathString (p : List String) : String := String.intercalate "/" p

/-- Code-point lexicographic `≤` on strings, Python's comparison order. -/
def lexLe : List Char → List Char → Bool
  | [], _ => true
  | _ :: _, [] => false
  | x :: xs, y :: ys => if x = y then lexLe xs ys else decide (x.toNat < y.toNat)

/-- Stable insertion into a sorted list (an element moves left only past
strictly greater ones), used to model Python's stable `sorted`. -/
def insertLe {α : Type} (le : α → α → Bool) (x : α) : List α → List α
  | [] => [x]
  | y :: ys => if le y x then y :: insertLe le x ys else x :: y :: ys

def insertionSort {α : Type} (le : α → α → Bool) : List α → List α
  | [] => []
  | x :: xs => insertLe le x (insertionSort le xs)

/-- `sorted(self._iter_config_files(directory))`: recognized files under the
directory, sorted by path string (Python compares `Path` objects by their
string form; the common absolute prefix makes that the relative order). -/
def sortedConfigFiles (fs : FileSys) (dir : List String) : FileSys :=
  insertionSort (fun a b => lexLe (pathString a.1).data (pathString b.1).data)
    ((filesUnder fs dir).filter (fun f => isConfigName (f.1.getLast?.getD "")))

/-- `loader._derive_key_path`: intermediate directory names plus the file's
stem. -/
def _derive_key_path (rel : List String) : List String :=
  rel.dropLast ++ [pyStem (rel.getLast?.getD "")]

/-- `loader._inject`: walk `key_path[:-1]` with `setdefault`, then
deep-merge mapping-into-mapping at the leaf or replace otherwise.  A
non-mapping intermediate makes the source raise a builtin error on the next
`setdefault`/indexing, modelled as `typeErr`. -/
def _inject (target : Tree) : List String → Val → Except LcError Tree
  | [], v =>
    match v with
    | .vmap m => .ok (Core.deep_merge target m)
    | _ => .error (.valueError "Root-level config file must contain a mapping.")
  | [leaf], v =>
    match lookup target leaf, v with
    | some (.vmap m), .vmap o => .ok (setKey target leaf (.vmap (Core.deep_merge m o)))
    | _, _ => .ok (setKey target leaf v)
  | p :: rest, v =>
    match lookup target p with
    | some (.vmap m) =>
      match _inject m rest v with
      | .ok m₂ => .ok (setKey target p (.vmap m₂))
      | .error e => .error e
    | some _ => .error .typeErr
    | none =>
      match _inject [] rest v with
      | .ok m₂ => .ok (setKey target p (.vmap m₂))
      | .error e => .error e

/-- One directory of `LayeredConfigLoader.load`'s main loop: inject every
qualifying file in sorted order, counting loaded files. -/
def loadDir (fs : FileSys) (acc : Tree × Nat) (dir : List String) :
    Except LcError (Tree × Nat) :=
  (sortedConfigFiles fs dir).foldlM
    (fun tn fv =>
      match _inject tn.1 (_derive_key_path fv.1) fv.2 with
      | .ok t₂ => .ok (t₂, tn.2 + 1)
      | .error e => .error e)
    acc

namespace LayeredConfigLoader

/-- `loader.LayeredConfigLoader.load`: expand layers, merge files from each
existing directory in order, fail when nothing was found, apply overrides,
resolve placeholders. -/
def load (fs : FileSys) (layers : List (List String)) (env getenvResult : Option String)
    (environ : List (String × String)) (overrides : List (String × Val)) :
    Except LcError Tree :=
  let ordered_dirs := _expand_layers layers env getenvResult
  if ordered_dirs.isEmpty then .error (.configNotFoundError "No configuration folders found.")
  else
    match ordered_dirs.foldlM (fun acc d => loadDir fs acc d) (([], 0) : Tree × Nat) with
    | .error e => .error e
    | .ok (merged, files_loaded) =>
      if files_loaded = 0 then
        .error (.configNotFoundError ("No configuration files found inside: " ++
          String.intercalate ", " (ordered_dirs.map pathString)))
      else
        match (if overrides.isEmpty then .ok merged else apply_overrides merged overrides :
            Except LcError Tree) with
        | .error e => .error e
        | .ok withOv => Core.resolveTree environ withOv

end LayeredConfigLoader

/-! ### Heap model of the two `deep_merge` functions

Purity and defensive copying are statements about Python object identity,
so they are settled against a heap model: objects live at addresses
(indices into a list), dicts and lists hold addresses of their children,
scalars are immutable leaves.  Allocation appends; mutation overwrites one
address.  `copy.deepcopy` allocates a fresh copy of the whole reachable
tree (CPython returns immutable scalars unchanged; copying them too is
observationally equivalent and makes freshness uniform).  All functions
carry fuel, spending one unit per nested call, so any sufficiently large
fuel gives the semantics of the Python recursion; fuel exhaustion returns
`none`. -/

namespace HeapModel

inductive Prim where
  | pnull : Prim
  | pbool : Bool → Prim
  | pint : Int → Prim
  | pfloat : String → Prim
  | pstr : String → Prim
deriving Repr, DecidableEq

inductive Obj where
  | leaf : Prim → Obj
  | dict : List (String × Nat) → Obj
  | arr : List Nat → Obj
deriving Repr, DecidableEq

abbrev Heap := List Obj

def hget (h : Heap) (a : Nat) : Option Obj := h.get? a

def hset (h : Heap) (a : Nat) (o : Obj) : Heap := h.set a o

def alookup : List (String × Nat) → String → Option Nat
  | [], _ => none
  | (k, c) :: rest, key => if k = key then some c else alookup rest key

def aset : List (String × Nat) → String → Nat → List (String × Nat)
  | [], key, c => [(key, c)]
  | (k, d) :: rest, key, c =>
    if k = key then (key, c) :: rest else (k, d) :: aset rest key c

mutual

/-- `copy.deepcopy`. -/
def deepCopy : Nat → Heap → Nat → Option (Heap × Nat)
  | 0, _, _ => none
  | fuel + 1, h, a =>
    match hget h a with
    | some (.leaf p) => some (h ++ [.leaf p], h.length)
    | some (.dict fs) =>
      match copyFields fuel h fs with
      | some (h₁, fs₂) => some (h₁ ++ [.dict fs₂], h₁.length)
      | none => none
    | some (.arr es) =>
      match copyElems fuel h es with
      | some (h₁, es₂) => some (h₁ ++ [.arr es₂], h₁.length)
      | none => none
    | none => none

def copyFields : Nat → Heap → List (String × Nat) → Option (Heap × List (String × Nat))
  | _, h, [] => some (h, [])
  | 0, _, _ => none
  | fuel + 1, h, (k, c) :: rest =>
    match deepCopy fuel h c with
    | some (h₁, c₂) =>
      match copyFields fuel h₁ rest with
      | some (h₂, rest₂) => some (h₂, (k, c₂) :: rest₂)
      | none => none
    | none => none

def copyElems : Nat → Heap → List Nat → Option (Heap × List Nat)
  | _, h, [] => some (h, [])
  | 0, _, _ => none
  | fuel + 1, h, c :: rest =>
    match deepCopy fuel h c with
    | some (h₁, c₂) =>
      match copyElems fuel h₁ rest with
      | some (h₂, rest₂) => some (h₂, c₂ :: rest₂)
      | none => none
    | none => none

end

/-- The loop condition `key in merged and isinstance(merged[key],
MutableMapping) and isinstance(value, Mapping)`: the address to recurse
into, when the accumulator binds the key to a dict and the overlay value is
a dict. -/
def recurseTarget (h : Heap) (mfs : List (String × Nat)) (k : String) (va : Nat) :
    Option Nat :=
  match alookup mfs k with
  | some ca =>
    match hget h ca, hget h va with
    | some (.dict _), some (.dict _) => some ca
    | _, _ => none
  | none => none

mutual

/-- `merger.deep_merge` on the heap: deep-copy the base dict, then fold the
overlay items into the copy, mutating only the freshly allocated dict. -/
def mergeM : Nat → Heap → Nat → Nat → Option (Heap × Nat)
  | 0, _, _, _ => none
  | fuel + 1, h, b, o =>
    match hget h b, hget h o with
    | some (.dict _), some (.dict ofs) =>
      match deepCopy fuel h b with
      | some (h₁, m) =>
        match mergeItems fuel h₁ m ofs with
        | some h₂ => some (h₂, m)
        | none => none
      | none => none
    | _, _ => none

/-- The `for key, value in override.items():` loop, updating the merged
dict at address `m`. -/
def mergeItems : Nat → Heap → Nat → List (String × Nat) → Option Heap
  | _, h, _, [] => some h
  | 0, _, _, _ => none
  | fuel + 1, h, m, (k, va) :: rest =>
    match hget h m with
    | some (.dict mfs) =>
      match recurseTarget h mfs k va with
      | some ca =>
        match mergeM fuel h ca va with
        | some (h₂, r) => mergeItems fuel (hset h₂ m (.dict (aset mfs k r))) m rest
        | none => none
      | none =>
        match deepCopy fuel h va with
        | some (h₂, c) => mergeItems fuel (hset h₂ m (.dict (aset mfs k c))) m rest
        | none => none
    | _ => none

end

mutual

/-- `core.deep_merge` on the heap: mutate `base` in place (no initial
copy); overlay values are still deep-copied in. -/
def mergeInPlaceM : Nat → Heap → Nat → Nat → Option Heap
  | 0, _, _, _ => none
  | fuel + 1, h, b, o =>
    match hget h o with
    | some (.dict ofs) => inPlaceItems fuel h b ofs
    | _ => none

def inPlaceItems : Nat → Heap → Nat → List (String × Nat) → Option Heap
  | _, h, _, [] => some h
  | 0, _, _, _ => none
  | fuel + 1, h, b, (k, va) :: rest =>
    match hget h b with
    | some (.dict bfs) =>
      match recurseTarget h bfs k va with
      | some ca =>
        match mergeInPlaceM fuel h ca va with
        | some h₂ => inPlaceItems fuel h₂ b rest
        | none => none
      | none =>
        match deepCopy fuel h va with
        | some (h₂, c) => inPlaceItems fuel (hset h₂ b (.dict (aset bfs k c))) b rest
        | none => none
    | _ => none

end

mutual

/-- The structural value denoted by the object at an address (up to fuel):
what Python structural equality `==` compares. -/
def readTree : Nat → Heap → Nat → Option Val
  | 0, _, _ => none
  | fuel + 1, h, a =>
    match hget h a with
    | some (.leaf .pnull) => some .vnull
    | some (.leaf (.pbool b)) => some (.vbool b)
    | some (.leaf (.pint n)) => some (.vint n)
    | some (.leaf (.pfloat s)) => some (.vfloat s)
    | some (.leaf (.pstr s)) => some (.vstr s)
    | some (.dict fs) => (readFields fuel h fs).map Val.vmap
    | some (.arr es) => (readElems fuel h es).map Val.vseq
    | none => none

def readFields : Nat → Heap → List (String × Nat) → Option Tree
  | _, _, [] => some []
  | 0, _, _ => none
  | fuel + 1, h, (k, c) :: rest =>
    match readTree fuel h c with
    | some v =>
      match readFields fuel h rest with
      | some rest₂ => some ((k, v) :: rest₂)
      | none => none
    | none => none

def readElems : Nat → Heap → List Nat → Option (List Val)
  | _, _, [] => some []
  | 0, _, _ => none
  | fuel + 1, h, c :: rest =>
    match readTree fuel h c with
    | some v =>
      match readElems fuel h rest with
      | some rest₂ => some (v :: rest₂)
      | none => none
    | none => none

end

/-- Every address visited by a depth-`fuel` exploration from `a` lies in
the interval `[lo, hi)`. -/
def treeIn : Nat → Heap → Nat → Nat → Nat → Bool
  | 0, _, _, _, _ => true
  | fuel + 1, h, lo, hi, a =>
    decide (lo ≤ a) && decide (a < hi) &&
      (match hget h a with
       | some (.dict fs) => fs.all (fun kc => treeIn fuel h lo hi kc.2)
       | some (.arr es) => es.all (fun c => treeIn fuel h lo hi c)
       | _ => true)

/-- All children recorded in an object stay below `n`. -/
def objOK (n : Nat) : Obj → Bool
  | .leaf _ => true
  | .dict fs => fs.all (fun kc => kc.2 < n)
  | .arr es => es.all (fun c => c < n)

/-- A closed heap: no object points at or past the end of the heap. -/
def closedHeap (h : Heap) : Bool := h.all (objOK h.length)

/-- The pre-existing part of the heap is untouched: the call only appended
new objects and only mutated objects it allocated itself. -/
def Extends (h h' : Heap) : Prop :=
  h.length ≤ h'.length ∧ ∀ a, a < h.length → hget h' a = hget h a

theorem Extends.refl (h : Heap) : Extends h h := ⟨Nat.le_refl _, fun _ _ => rfl⟩

theorem Extends.trans {h₁ h₂ h₃ : Heap} (a : Extends h₁ h₂) (b : Extends h₂ h₃) :
    Extends h₁ h₃ :=
  ⟨Nat.le_trans a.1 b.1, fun x hx => (b.2 x (Nat.lt_of_lt_of_le hx a.1)).trans (a.2 x hx)⟩

theorem hget_append_lt (h t : Heap) (a : Nat) (ha : a < h.length) :
    hget (h ++ t) a = hget h a := by
  unfold hget
  induction h generalizing a with
  | nil => simp at ha
  | cons x xs ih =>
    cases a with
    | zero => rfl
    | succ a =>
      simp only [List.length_cons] at ha
      simpa using ih a (by omega)

theorem hget_append_len (h : Heap) (o : Obj) : hget (h ++ [o]) h.length = some o := by
  unfold hget
  induction h with
  | nil => rfl
  | cons x xs ih => simp only [List.cons_append, List.length_cons, List.get?]; exact ih

theorem extends_append (h t : Heap) : Extends h (h ++ t) :=
  ⟨by simp, fun a ha => hget_append_lt h t a ha⟩

theorem length_hset (h : Heap) (a : Nat) (o : Obj) : (hset h a o).length = h.length :=
  List.length_set h a o

theorem hget_set_same (h : Heap) (a : Nat) (o : Obj) (ha : a < h.length) :
    hget (hset h a o) a = some o := by
  unfold hget hset
  induction h generalizing a with
  | nil => simp at ha
  | cons x xs ih =>
    cases a with
    | zero => rfl
    | succ a =>
      simp only [List.length_cons] at ha
      simpa using ih a (by omega)

theorem hget_set_other (h : Heap) (a b : Nat) (o : Obj) (hne : a ≠ b) :
    hget (hset h b o) a = hget h a := by
  unfold hget hset
  induction h generalizing a b with
  | nil => simp
  | cons x xs ih =>
    cases b with
    | zero =>
      cases a with
      | zero => exact absurd rfl hne
      | succ a => rfl
    | succ b =>
      cases a with
      | zero => rfl
      | succ a => simpa using ih a b (by omega)

theorem hget_lt_length (h : Heap) (a : Nat) (o : Obj) (hg : hget h a = some o) :
    a < h.length := by
  unfold hget at hg
  by_contra hcon
  rw [List.get?_eq_none.mpr (by omega)] at hg
  exact Option.noConfusion hg

/-- Shallower exploration stays in bounds if a deeper one does. -/
theorem treeIn_fuel_le : ∀ (f g : Nat) (h : Heap) (lo hi a : Nat), g ≤ f →
    treeIn f h lo hi a = true → treeIn g h lo hi a = true := by
  intro f
  induction f with
  | zero =>
    intro g h lo hi a hg ht
    have : g = 0 := by omega
    subst this
    rfl
  | succ f ih =>
    intro g h lo hi a hg ht
    cases g with
    | zero => rfl
    | succ g =>
      simp only [treeIn, Bool.and_eq_true, decide_eq_true_eq] at ht ⊢
      refine ⟨⟨ht.1.1, ht.1.2⟩, ?_⟩
      rcases hobj : hget h a with _ | o
      · rfl
      · rw [hobj] at ht
        cases o with
        | leaf p => rfl
        | dict fs =>
          replace ht : (lo ≤ a ∧ a < hi) ∧
              fs.all (fun kc => treeIn f h lo hi kc.2) = true := ht
          show fs.all (fun kc => treeIn g h lo hi kc.2) = true
          simp only [List.all_eq_true] at ht ⊢
          exact fun kc hkc => ih g h lo hi kc.2 (by omega) (ht.2 kc hkc)
        | arr es =>
          replace ht : (lo ≤ a ∧ a < hi) ∧
              es.all (fun c => treeIn f h lo hi c) = true := ht
          show es.all (fun c => treeIn g h lo hi c) = true
          simp only [List.all_eq_true] at ht ⊢
          exact fun c hc => ih g h lo hi c (by omega) (ht.2 c hc)

/-- Weakening the interval preserves `treeIn`. -/
theorem treeIn_mono : ∀ (f : Nat) (h : Heap) (lo lo' hi hi' a : Nat), lo' ≤ lo → hi ≤ hi' →
    treeIn f h lo hi a = true → treeIn f h lo' hi' a = true := by
  intro f
  induction f with
  | zero => intro _ _ _ _ _ _ _ _ _; rfl
  | succ f ih =>
    intro h lo lo' hi hi' a hlo hhi ht
    simp only [treeIn, Bool.and_eq_true, decide_eq_true_eq] at ht ⊢
    refine ⟨⟨by omega, by omega⟩, ?_⟩
    rcases hobj : hget h a with _ | o
    · rfl
    · rw [hobj] at ht
      cases o with
      | leaf p => rfl
      | dict fs =>
        replace ht : (lo ≤ a ∧ a < hi) ∧
            fs.all (fun kc => treeIn f h lo hi kc.2) = true := ht
        show fs.all (fun kc => treeIn f h lo' hi' kc.2) = true
        simp only [List.all_eq_true] at ht ⊢
        exact fun kc hkc => ih h lo lo' hi hi' kc.2 hlo hhi (ht.2 kc hkc)
      | arr es =>
        replace ht : (lo ≤ a ∧ a < hi) ∧
            es.all (fun c => treeIn f h lo hi c) = true := ht
        show es.all (fun c => treeIn f h lo' hi' c) = true
        simp only [List.all_eq_true] at ht ⊢
        exact fun c hc => ih h lo lo' hi hi' c hlo hhi (ht.2 c hc)

/-- `treeIn` transfers to any heap agreeing on the interval. -/
theorem treeIn_frame : ∀ (f : Nat) (h₁ h₂ : Heap) (lo hi a : Nat),
    (∀ x, lo ≤ x → x < hi → hget h₂ x = hget h₁ x) →
    treeIn f h₁ lo hi a = true → treeIn f h₂ lo hi a = true := by
  intro f
  induction f with
  | zero => intro _ _ _ _ _ _ _; rfl
  | succ f ih =>
    intro h₁ h₂ lo hi a hagree ht
    simp only [treeIn, Bool.and_eq_true, decide_eq_true_eq] at ht ⊢
    refine ⟨⟨ht.1.1, ht.1.2⟩, ?_⟩
    rw [hagree a ht.1.1 ht.1.2]
    rcases hobj : hget h₁ a with _ | o
    · rfl
    · rw [hobj] at ht
      cases o with
      | leaf p => rfl
      | dict fs =>
        replace ht : (lo ≤ a ∧ a < hi) ∧
            fs.all (fun kc => treeIn f h₁ lo hi kc.2) = true := ht
        show fs.all (fun kc => treeIn f h₂ lo hi kc.2) = true
        simp only [List.all_eq_true] at ht ⊢
        exact fun kc hkc => ih h₁ h₂ lo hi kc.2 hagree (ht.2 kc hkc)
      | arr es =>
        replace ht : (lo ≤ a ∧ a < hi) ∧
            es.all (fun c => treeIn f h₁ lo hi c) = true := ht
        show es.all (fun c => treeIn f h₂ lo hi c) = true
        simp only [List.all_eq_true] at ht ⊢
        exact fun c hc => ih h₁ h₂ lo hi c hagree (ht.2 c hc)

/-- Structural reads depend only on the objects inside the interval a
`treeIn` certificate confines the tree to. -/
theorem read_agree : ∀ (f : Nat),
    (∀ (h₁ h₂ : Heap) (lo hi a : Nat),
      (∀ x, lo ≤ x → x < hi → hget h₂ x = hget h₁ x) →
      treeIn f h₁ lo hi a = true → readTree f h₂ a = readTree f h₁ a) ∧
    (∀ (h₁ h₂ : Heap) (lo hi : Nat) (fs : List (String × Nat)),
      (∀ x, lo ≤ x → x < hi → hget h₂ x = hget h₁ x) →
      (∀ kc ∈ fs, treeIn f h₁ lo hi kc.2 = true) →
      readFields f h₂ fs = readFields f h₁ fs) ∧
    (∀ (h₁ h₂ : Heap) (lo hi : Nat) (es : List Nat),
      (∀ x, lo ≤ x → x < hi → hget h₂ x = hget h₁ x) →
      (∀ c ∈ es, treeIn f h₁ lo hi c = true) →
      readElems f h₂ es = readElems f h₁ es) := by
  intro f
  induction f with
  | zero =>
    refine ⟨fun _ _ _ _ _ _ _ => rfl, fun h₁ h₂ _ _ fs _ _ => ?_, fun h₁ h₂ _ _ es _ _ => ?_⟩
    · cases fs <;> rfl
    · cases es <;> rfl
  | succ f ih =>
    refine ⟨?_, ?_, ?_⟩
    · intro h₁ h₂ lo hi a hagree ht
      simp only [treeIn, Bool.and_eq_true, decide_eq_true_eq] at ht
      have hg2 : hget h₂ a = hget h₁ a := hagree a ht.1.1 ht.1.2
      simp only [readTree, hg2]
      rcases hobj : hget h₁ a with _ | o
      · rfl
      · rw [hobj] at ht
        cases o with
        | leaf p => cases p <;> rfl
        | dict fs =>
          replace ht : (lo ≤ a ∧ a < hi) ∧
              fs.all (fun kc => treeIn f h₁ lo hi kc.2) = true := ht
          show (readFields f h₂ fs).map Val.vmap = (readFields f h₁ fs).map Val.vmap
          rw [ih.2.1 h₁ h₂ lo hi fs hagree (List.all_eq_true.mp ht.2)]
        | arr es =>
          replace ht : (lo ≤ a ∧ a < hi) ∧
              es.all (fun c => treeIn f h₁ lo hi c) = true := ht
          show (readElems f h₂ es).map Val.vseq = (readElems f h₁ es).map Val.vseq
          rw [ih.2.2 h₁ h₂ lo hi es hagree (List.all_eq_true.mp ht.2)]
    · intro h₁ h₂ lo hi fs hagree hts
      cases fs with
      | nil => rfl
      | cons kc rest =>
        obtain ⟨k, c⟩ := kc
        have hc : treeIn f h₁ lo hi c :=
          treeIn_fuel_le (f + 1) f h₁ lo hi c (by omega) (hts (k, c) (by simp))
        simp only [readFields]
        rw [ih.1 h₁ h₂ lo hi c hagree hc]
        rcases hrt : readTree f h₁ c with _ | v
        · rfl
        · rw [ih.2.1 h₁ h₂ lo hi rest hagree
            (fun kc hkc => treeIn_fuel_le (f + 1) f h₁ lo hi kc.2 (by omega)
              (hts kc (by simp [hkc])))]
    · intro h₁ h₂ lo hi es hagree hts
      cases es with
      | nil => rfl
      | cons c rest =>
        have hc : treeIn f h₁ lo hi c :=
          treeIn_fuel_le (f + 1) f h₁ lo hi c (by omega) (hts c (by simp))
        simp only [readElems]
        rw [ih.1 h₁ h₂ lo hi c hagree hc]
        rcases hrt : readTree f h₁ c with _ | v
        · rfl
        · rw [ih.2.2 h₁ h₂ lo hi rest hagree
            (fun c₂ hc₂ => treeIn_fuel_le (f + 1) f h₁ lo hi c₂ (by omega)
              (hts c₂ (by simp [hc₂])))]

/-- In a closed heap every tree is confined to the heap itself. -/
theorem closed_treeIn (h : Heap) (hc : closedHeap h = true) :
    ∀ (f a : Nat), a < h.length → treeIn f h 0 h.length a = true := by
  intro f
  induction f with
  | zero => intro a _; rfl
  | succ f ih =>
    intro a ha
    simp only [treeIn, Bool.and_eq_true, decide_eq_true_eq]
    refine ⟨⟨Nat.zero_le _, ha⟩, ?_⟩
    rcases hobj : hget h a with _ | o
    · rfl
    · have hmem : o ∈ h := List.get?_mem hobj
      have hok : objOK h.length o = true := List.all_eq_true.mp hc o hmem
      cases o with
      | leaf p => rfl
      | dict fs =>
        show fs.all (fun kc => treeIn f h 0 h.length kc.2) = true
        simp only [objOK, List.all_eq_true, decide_eq_true_eq] at hok
        simp only [List.all_eq_true]
        exact fun kc hkc => ih kc.2 (hok kc hkc)
      | arr es =>
        show es.all (fun c => treeIn f h 0 h.length c) = true
        simp only [objOK, List.all_eq_true, decide_eq_true_eq] at hok
        simp only [List.all_eq_true]
        exact fun c hcm => ih c (hok c hcm)

/-- `deepcopy` only allocates: the old heap is untouched, the result is a
fresh address, and everything reachable from it lies in the freshly
allocated region. -/
theorem copySpec : ∀ (f : Nat),
    (∀ (h : Heap) (a : Nat) (h₁ : Heap) (c : Nat), deepCopy f h a = some (h₁, c) →
      Extends h h₁ ∧ h.length ≤ c ∧ c < h₁.length ∧
        ∀ fu, treeIn fu h₁ h.length h₁.length c = true) ∧
    (∀ (h : Heap) (fs : List (String × Nat)) (h₁ : Heap) (fs₂ : List (String × Nat)),
      copyFields f h fs = some (h₁, fs₂) →
      Extends h h₁ ∧ ∀ kc ∈ fs₂, h.length ≤ kc.2 ∧ kc.2 < h₁.length ∧
        ∀ fu, treeIn fu h₁ h.length h₁.length kc.2 = true) ∧
    (∀ (h : Heap) (es : List Nat) (h₁ : Heap) (es₂ : List Nat),
      copyElems f h es = some (h₁, es₂) →
      Extends h h₁ ∧ ∀ c ∈ es₂, h.length ≤ c ∧ c < h₁.length ∧
        ∀ fu, treeIn fu h₁ h.length h₁.length c = true) := by
  intro f
  induction f with
  | zero =>
    refine ⟨?_, ?_, ?_⟩
    · intro h a h₁ c hcp
      exact absurd hcp (by simp [deepCopy])
    · intro h fs h₁ fs₂ hcp
      cases fs with
      | nil =>
        replace hcp : some ((h, ([] : List (String × Nat)))) = some ((h₁, fs₂)) := hcp
        simp only [Option.some.injEq, Prod.mk.injEq] at hcp
        obtain ⟨rfl, rfl⟩ := hcp
        exact ⟨Extends.refl h, by simp⟩
      | cons kc rest => exact absurd hcp (by simp [copyFields])
    · intro h es h₁ es₂ hcp
      cases es with
      | nil =>
        replace hcp : some ((h, ([] : List Nat))) = some ((h₁, es₂)) := hcp
        simp only [Option.some.injEq, Prod.mk.injEq] at hcp
        obtain ⟨rfl, rfl⟩ := hcp
        exact ⟨Extends.refl h, by simp⟩
      | cons c rest => exact absurd hcp (by simp [copyElems])
  | succ f ih =>
    obtain ⟨ihT, ihF, ihE⟩ := ih
    refine ⟨?_, ?_, ?_⟩
    · intro h a h₁ c hcp
      simp only [deepCopy] at hcp
      rcases hobj : hget h a with _ | o
      · rw [hobj] at hcp; exact absurd hcp (by simp)
      · rw [hobj] at hcp
        cases o with
        | leaf p =>
          replace hcp : some ((h ++ [Obj.leaf p], h.length)) = some ((h₁, c)) := hcp
          simp only [Option.some.injEq, Prod.mk.injEq] at hcp
          obtain ⟨rfl, rfl⟩ := hcp
          refine ⟨extends_append h _, Nat.le_refl _, by simp, ?_⟩
          intro fu
          cases fu with
          | zero => rfl
          | succ fu =>
            simp only [treeIn, Bool.and_eq_true, decide_eq_true_eq]
            refine ⟨⟨Nat.le_refl _, by simp⟩, ?_⟩
            rw [hget_append_len]
        | dict fs =>
          replace hcp : (match copyFields f h fs with
              | some (h₂, fs₂) => some ((h₂ ++ [Obj.dict fs₂], h₂.length))
              | none => none) = some ((h₁, c)) := hcp
          rcases hcf : copyFields f h fs with _ | ⟨h₂, fs₂⟩
          · rw [hcf] at hcp; exact absurd hcp (by simp)
          · rw [hcf] at hcp
            replace hcp : some ((h₂ ++ [Obj.dict fs₂], h₂.length)) = some ((h₁, c)) := hcp
            simp only [Option.some.injEq, Prod.mk.injEq] at hcp
            obtain ⟨rfl, rfl⟩ := hcp
            obtain ⟨hext, hkids⟩ := ihF h fs h₂ fs₂ hcf
            have hlen : h.length ≤ h₂.length := hext.1
            refine ⟨hext.trans (extends_append h₂ _), hlen, by simp, ?_⟩
            intro fu
            cases fu with
            | zero => rfl
            | succ fu =>
              simp only [treeIn, Bool.and_eq_true, decide_eq_true_eq]
              refine ⟨⟨hlen, by simp⟩, ?_⟩
              rw [hget_append_len]
              show fs₂.all (fun kc =>
                treeIn fu (h₂ ++ [Obj.dict fs₂]) h.length (h₂ ++ [Obj.dict fs₂]).length kc.2)
                = true
              simp only [List.all_eq_true]
              intro kc hkc
              obtain ⟨hk1, hk2, hk3⟩ := hkids kc hkc
              have hfr := treeIn_frame fu h₂ (h₂ ++ [Obj.dict fs₂]) h.length h₂.length kc.2
                (fun x _ hx => hget_append_lt h₂ _ x hx) (hk3 fu)
              exact treeIn_mono fu _ h.length h.length h₂.length
                (h₂ ++ [Obj.dict fs₂]).length kc.2 (Nat.le_refl _) (by simp) hfr
        | arr es =>
          replace hcp : (match copyElems f h es with
              | some (h₂, es₂) => some ((h₂ ++ [Obj.arr es₂], h₂.length))
              | none => none) = some ((h₁, c)) := hcp
          rcases hce : copyElems f h es with _ | ⟨h₂, es₂⟩
          · rw [hce] at hcp; exact absurd hcp (by simp)
          · rw [hce] at hcp
            replace hcp : some ((h₂ ++ [Obj.arr es₂], h₂.length)) = some ((h₁, c)) := hcp
            simp only [Option.some.injEq, Prod.mk.injEq] at hcp
            obtain ⟨rfl, rfl⟩ := hcp
            obtain ⟨hext, hkids⟩ := ihE h es h₂ es₂ hce
            have hlen : h.length ≤ h₂.length := hext.1
            refine ⟨hext.trans (extends_append h₂ _), hlen, by simp, ?_⟩
            intro fu
            cases fu with
            | zero => rfl
            | succ fu =>
              simp only [treeIn, Bool.and_eq_true, decide_eq_true_eq]
              refine ⟨⟨hlen, by simp⟩, ?_⟩
              rw [hget_append_len]
              show es₂.all (fun c₂ =>
                treeIn fu (h₂ ++ [Obj.arr es₂]) h.length (h₂ ++ [Obj.arr es₂]).length c₂) = true
              simp only [List.all_eq_true]
              intro c₂ hc₂
              obtain ⟨hk1, hk2, hk3⟩ := hkids c₂ hc₂
              have hfr := treeIn_frame fu h₂ (h₂ ++ [Obj.arr es₂]) h.length h₂.length c₂
                (fun x _ hx => hget_append_lt h₂ _ x hx) (hk3 fu)
              exact treeIn_mono fu _ h.length h.length h₂.length
                (h₂ ++ [Obj.arr es₂]).length c₂ (Nat.le_refl _) (by simp) hfr
    · intro h fs h₁ fs₂ hcp
      cases fs with
      | nil =>
        replace hcp : some ((h, ([] : List (String × Nat)))) = some ((h₁, fs₂)) := hcp
        simp only [Option.some.injEq, Prod.mk.injEq] at hcp
        obtain ⟨rfl, rfl⟩ := hcp
        exact ⟨Extends.refl h, by simp⟩
      | cons kc rest =>
        obtain ⟨k, c₀⟩ := kc
        simp only [copyFields] at hcp
        rcases hdc : deepCopy f h c₀ with _ | ⟨h₂, c₂⟩
        · rw [hdc] at hcp; exact absurd hcp (by simp)
        · rw [hdc] at hcp
          replace hcp : (match copyFields f h₂ rest with
              | some (h₃, rest₂) => some ((h₃, (k, c₂) :: rest₂))
              | none => none) = some ((h₁, fs₂)) := hcp
          rcases hcf : copyFields f h₂ rest with _ | ⟨h₃, rest₂⟩
          · rw [hcf] at hcp; exact absurd hcp (by simp)
          · rw [hcf] at hcp
            replace hcp : some ((h₃, (k, c₂) :: rest₂)) = some ((h₁, fs₂)) := hcp
            simp only [Option.some.injEq, Prod.mk.injEq] at hcp
            obtain ⟨rfl, rfl⟩ := hcp
            obtain ⟨hextc, hc1, hc2, hc3⟩ := ihT h c₀ h₂ c₂ hdc
            obtain ⟨hextf, hkids⟩ := ihF h₂ rest h₃ rest₂ hcf
            refine ⟨hextc.trans hextf, ?_⟩
            intro kc hkc
            rcases List.mem_cons.mp hkc with heq | hmem
            · subst heq
              refine ⟨hc1, Nat.lt_of_lt_of_le hc2 hextf.1, ?_⟩
              intro fu
              have hfr := treeIn_frame fu h₂ h₃ h.length h₂.length c₂
                (fun x _ hx => hextf.2 x hx) (hc3 fu)
              exact treeIn_mono fu h₃ h.length h.length h₂.length h₃.length c₂
                (Nat.le_refl _) hextf.1 hfr
            · obtain ⟨hk1, hk2, hk3⟩ := hkids kc hmem
              refine ⟨Nat.le_trans hextc.1 hk1, hk2, ?_⟩
              intro fu
              exact treeIn_mono fu h₃ h₂.length h.length h₃.length h₃.length kc.2
                hextc.1 (Nat.le_refl _) (hk3 fu)
    · intro h es h₁ es₂ hcp
      cases es with
      | nil =>
        replace hcp : some ((h, ([] : List Nat))) = some ((h₁, es₂)) := hcp
        simp only [Option.some.injEq, Prod.mk.injEq] at hcp
        obtain ⟨rfl, rfl⟩ := hcp
        exact ⟨Extends.refl h, by simp⟩
      | cons c₀ rest =>
        simp only [copyElems] at hcp
        rcases hdc : deepCopy f h c₀ with _ | ⟨h₂, c₂⟩
        · rw [hdc] at hcp; exact absurd hcp (by simp)
        · rw [hdc] at hcp
          replace hcp : (match copyElems f h₂ rest with
              | some (h₃, rest₂) => some ((h₃, c₂ :: rest₂))
              | none => none) = some ((h₁, es₂)) := hcp
          rcases hcf : copyElems f h₂ rest with _ | ⟨h₃, rest₂⟩
          · rw [hcf] at hcp; exact absurd hcp (by simp)
          · rw [hcf] at hcp
            replace hcp : some ((h₃, c₂ :: rest₂)) = some ((h₁, es₂)) := hcp
            simp only [Option.some.injEq, Prod.mk.injEq] at hcp
            obtain ⟨rfl, rfl⟩ := hcp
            obtain ⟨hextc, hc1, hc2, hc3⟩ := ihT h c₀ h₂ c₂ hdc
            obtain ⟨hextf, hkids⟩ := ihE h₂ rest h₃ rest₂ hcf
            refine ⟨hextc.trans hextf, ?_⟩
            intro c hc
            rcases List.mem_cons.mp hc with heq | hmem
            · subst heq
              refine ⟨hc1, Nat.lt_of_lt_of_le hc2 hextf.1, ?_⟩
              intro fu
              have hfr := treeIn_frame fu h₂ h₃ h.length h₂.length c
                (fun x _ hx => hextf.2 x hx) (hc3 fu)
              exact treeIn_mono fu h₃ h.length h.length h₂.length h₃.length c
                (Nat.le_refl _) hextf.1 hfr
            · obtain ⟨hk1, hk2, hk3⟩ := hkids c hmem
              refine ⟨Nat.le_trans hextc.1 hk1, hk2, ?_⟩
              intro fu
              exact treeIn_mono fu h₃ h₂.length h.length h₃.length h₃.length c
                hextc.1 (Nat.le_refl _) (hk3 fu)

theorem aset_mem (fs : List (String × Nat)) (k : String) (c : Nat) :
    ∀ kc ∈ aset fs k c, kc.2 = c ∨ kc ∈ fs := by
  induction fs with
  | nil =>
    intro kc hkc
    simp only [aset, List.mem_singleton] at hkc
    left
    rw [hkc]
  | cons hd rest ih =>
    obtain ⟨k₀, d⟩ := hd
    intro kc hkc
    by_cases hk : k₀ = k
    · simp only [aset, hk, if_true, List.mem_cons] at hkc
      rcases hkc with h1 | h2
      · left; rw [h1]
      · right; exact List.mem_cons_of_mem _ h2
    · simp only [aset, hk, if_false, List.mem_cons] at hkc
      rcases hkc with h1 | h2
      · right; simp [h1]
      · rcases ih kc h2 with h3 | h4
        · left; exact h3
        · right; exact List.mem_cons_of_mem _ h4

/-- A child of the merged dict is benign: its subtree lives inside a frozen
interval of the heap that the merged dict's own address `m` avoids, so
later writes to `m` and later allocations cannot disturb it. -/
def ChildOK (h : Heap) (cut m c : Nat) : Prop :=
  ∃ lo hi, cut ≤ lo ∧ hi ≤ h.length ∧ (hi ≤ m ∨ m < lo) ∧
    ∀ fu, treeIn fu h lo hi c = true

/-- `merger.deep_merge` only allocates and only mutates the dict it
allocated itself: the old heap is untouched, the result is fresh, and
everything reachable from it is fresh. -/
theorem mergeSpec : ∀ (f : Nat),
    (∀ (h : Heap) (b o : Nat) (h' : Heap) (r : Nat), mergeM f h b o = some (h', r) →
      Extends h h' ∧ h.length ≤ r ∧ r < h'.length ∧
        ∀ fu, treeIn fu h' h.length h'.length r = true) ∧
    (∀ (h : Heap) (m : Nat) (items : List (String × Nat)) (h' : Heap) (cut : Nat)
        (mfs : List (String × Nat)),
      mergeItems f h m items = some h' →
      cut ≤ m → m < h.length → hget h m = some (.dict mfs) →
      (∀ kc ∈ mfs, ChildOK h cut m kc.2) →
      h.length ≤ h'.length ∧ (∀ a, a < h.length → a ≠ m → hget h' a = hget h a) ∧
      ∃ mfs', hget h' m = some (.dict mfs') ∧ ∀ kc ∈ mfs', ChildOK h' cut m kc.2) := by
  intro f
  induction f with
  | zero =>
    constructor
    · intro h b o h' r hmg
      exact absurd hmg (by simp [mergeM])
    · intro h m items h' cut mfs hmi hcm hmlen hgm hkids
      cases items with
      | nil =>
        replace hmi : some h = some h' := hmi
        injection hmi with hmi
        subst hmi
        exact ⟨Nat.le_refl _, fun _ _ _ => rfl, mfs, hgm, hkids⟩
      | cons kv rest => exact absurd hmi (by simp [mergeItems])
  | succ n ih =>
    obtain ⟨ihP, ihQ⟩ := ih
    constructor
    · intro h b o h' r hmg
      simp only [mergeM] at hmg
      rcases hb : hget h b with _ | ob
      · rw [hb] at hmg; exact absurd hmg (by simp)
      · rw [hb] at hmg
        cases ob with
        | leaf p => exact absurd hmg (by simp)
        | arr es => exact absurd hmg (by simp)
        | dict bfs =>
          rcases ho : hget h o with _ | oo
          · rw [ho] at hmg; exact absurd hmg (by simp)
          · rw [ho] at hmg
            cases oo with
            | leaf p => exact absurd hmg (by simp)
            | arr es => exact absurd hmg (by simp)
            | dict ofs =>
              replace hmg : (match deepCopy n h b with
                  | some (h₁, m) =>
                    (match mergeItems n h₁ m ofs with
                     | some h₂ => some ((h₂, m))
                     | none => none)
                  | none => none) = some ((h', r)) := hmg
              cases n with
              | zero => rw [show deepCopy 0 h b = none from rfl] at hmg
                        exact absurd hmg (by simp)
              | succ g =>
                have hdc : deepCopy (g + 1) h b =
                    (match copyFields g h bfs with
                     | some (h₂, fs₂) => some ((h₂ ++ [Obj.dict fs₂], h₂.length))
                     | none => none) := by
                  simp only [deepCopy, hb]
                rw [hdc] at hmg
                rcases hcf : copyFields g h bfs with _ | ⟨h₂, fs₂⟩
                · rw [hcf] at hmg; exact absurd hmg (by simp)
                · rw [hcf] at hmg
                  replace hmg : (match mergeItems (g + 1) (h₂ ++ [Obj.dict fs₂]) h₂.length ofs with
                      | some h₃ => some ((h₃, h₂.length))
                      | none => none) = some ((h', r)) := hmg
                  rcases hmi : mergeItems (g + 1) (h₂ ++ [Obj.dict fs₂]) h₂.length ofs
                    with _ | hfin
                  · rw [hmi] at hmg; exact absurd hmg (by simp)
                  · rw [hmi] at hmg
                    replace hmg : some ((hfin, h₂.length)) = some ((h', r)) := hmg
                    simp only [Option.some.injEq, Prod.mk.injEq] at hmg
                    obtain ⟨rfl, rfl⟩ := hmg
                    obtain ⟨hextF, hkidsF⟩ := (copySpec g).2.1 h bfs h₂ fs₂ hcf
                    have hm1 : h.length ≤ h₂.length := hextF.1
                    have hm2 : h₂.length < (h₂ ++ [Obj.dict fs₂]).length := by simp
                    have hgm1 : hget (h₂ ++ [Obj.dict fs₂]) h₂.length = some (.dict fs₂) :=
                      hget_append_len h₂ _
                    have hchildren : ∀ kc ∈ fs₂,
                        ChildOK (h₂ ++ [Obj.dict fs₂]) h.length h₂.length kc.2 := by
                      intro kc hkc
                      obtain ⟨hk1, hk2, hk3⟩ := hkidsF kc hkc
                      refine ⟨h.length, h₂.length, Nat.le_refl _, by simp, Or.inl (Nat.le_refl _),
                        fun fu => ?_⟩
                      exact treeIn_frame fu h₂ (h₂ ++ [Obj.dict fs₂]) h.length h₂.length kc.2
                        (fun x _ hx => hget_append_lt h₂ _ x hx) (hk3 fu)
                    obtain ⟨hq1, hq2, mfs', hq3, hq4⟩ :=
                      ihQ (h₂ ++ [Obj.dict fs₂]) h₂.length ofs hfin h.length fs₂ hmi
                        hm1 hm2 hgm1 hchildren
                    have hlen1 : (h₂ ++ [Obj.dict fs₂]).length ≤ hfin.length := hq1
                    refine ⟨⟨by simp at hlen1; omega, ?_⟩, hm1, by simp at hlen1; omega, ?_⟩
                    · intro a ha
                      have hne : a ≠ h₂.length := by omega
                      rw [hq2 a (by simp; omega) hne,
                        hget_append_lt h₂ _ a (by omega), hextF.2 a ha]
                    · intro fu
                      cases fu with
                      | zero => rfl
                      | succ fu =>
                        simp only [treeIn, Bool.and_eq_true, decide_eq_true_eq]
                        refine ⟨⟨hm1, by simp at hlen1; omega⟩, ?_⟩
                        rw [hq3]
                        show mfs'.all (fun kc => treeIn fu hfin h.length hfin.length kc.2) = true
                        simp only [List.all_eq_true]
                        intro kc hkc
                        obtain ⟨lo, hi, hl1, hl2, hl3, hl4⟩ := hq4 kc hkc
                        exact treeIn_mono fu hfin lo h.length hi hfin.length kc.2 hl1 hl2 (hl4 fu)
    · intro h m items h' cut mfs hmi hcm hmlen hgm hkids
      cases items with
      | nil =>
        replace hmi : some h = some h' := hmi
        injection hmi with hmi
        subst hmi
        exact ⟨Nat.le_refl _, fun _ _ _ => rfl, mfs, hgm, hkids⟩
      | cons kv rest =>
        obtain ⟨k, va⟩ := kv
        simp only [mergeItems] at hmi
        rw [hgm] at hmi
        have contStep : ∀ (h₂ : Heap) (c : Nat),
            Extends h h₂ → h.length ≤ c → c < h₂.length →
            (∀ fu, treeIn fu h₂ h.length h₂.length c = true) →
            mergeItems n (hset h₂ m (.dict (aset mfs k c))) m rest = some h' →
            h.length ≤ h'.length ∧ (∀ a, a < h.length → a ≠ m → hget h' a = hget h a) ∧
            ∃ mfs', hget h' m = some (.dict mfs') ∧ ∀ kc ∈ mfs', ChildOK h' cut m kc.2 := by
          intro h₂ c hext hc1 hc2 hc3 hrest
          have hm3 : m < (hset h₂ m (.dict (aset mfs k c))).length := by
            rw [length_hset]; omega
          have hgm3 : hget (hset h₂ m (.dict (aset mfs k c))) m =
              some (.dict (aset mfs k c)) :=
            hget_set_same h₂ m _ (by omega)
          have hchildren : ∀ kc ∈ aset mfs k c,
              ChildOK (hset h₂ m (.dict (aset mfs k c))) cut m kc.2 := by
            intro kc hkc
            rcases aset_mem mfs k c kc hkc with hnew | hold
            · rw [hnew]
              refine ⟨h.length, h₂.length, by omega, by rw [length_hset], Or.inr (by omega),
                fun fu => ?_⟩
              exact treeIn_frame fu h₂ _ h.length h₂.length c
                (fun x hx _ => hget_set_other h₂ x m _ (by omega)) (hc3 fu)
            · obtain ⟨lo, hi, hl1, hl2, hl3, hl4⟩ := hkids kc hold
              refine ⟨lo, hi, hl1, by rw [length_hset]; omega, hl3, fun fu => ?_⟩
              have step1 : treeIn fu h₂ lo hi kc.2 = true :=
                treeIn_frame fu h _ lo hi kc.2
                  (fun x hx hx2 => hext.2 x (by omega)) (hl4 fu)
              exact treeIn_frame fu h₂ _ lo hi kc.2
                (fun x hx hx2 => hget_set_other h₂ x m _ (by omega)) step1
          obtain ⟨hq1, hq2, mfs', hq3, hq4⟩ :=
            ihQ (hset h₂ m (.dict (aset mfs k c))) m rest h' cut (aset mfs k c)
              hrest hcm hm3 hgm3 hchildren
          rw [length_hset] at hq1
          refine ⟨by omega, ?_, mfs', hq3, hq4⟩
          intro a ha hne
          rw [hq2 a (by rw [length_hset]; omega) hne, hget_set_other h₂ a m _ hne,
            hext.2 a ha]
        replace hmi : (match recurseTarget h mfs k va with
            | some ca =>
              (match mergeM n h ca va with
               | some (h₂, r) => mergeItems n (hset h₂ m (.dict (aset mfs k r))) m rest
               | none => none)
            | none =>
              (match deepCopy n h va with
               | some (h₂, c) => mergeItems n (hset h₂ m (.dict (aset mfs k c))) m rest
               | none => none)) = some h' := hmi
        rcases hrw : recurseTarget h mfs k va with _ | ca
        · rw [hrw] at hmi
          replace hmi : (match deepCopy n h va with
              | some (h₂, c) => mergeItems n (hset h₂ m (.dict (aset mfs k c))) m rest
              | none => none) = some h' := hmi
          rcases hdc : deepCopy n h va with _ | ⟨h₂, c⟩
          · rw [hdc] at hmi; exact absurd hmi (by simp)
          · rw [hdc] at hmi
            obtain ⟨hext, hc1, hc2, hc3⟩ := (copySpec n).1 h va h₂ c hdc
            exact contStep h₂ c hext hc1 hc2 hc3 hmi
        · rw [hrw] at hmi
          replace hmi : (match mergeM n h ca va with
              | some (h₂, r) => mergeItems n (hset h₂ m (.dict (aset mfs k r))) m rest
              | none => none) = some h' := hmi
          rcases hmg : mergeM n h ca va with _ | ⟨h₂, r⟩
          · rw [hmg] at hmi; exact absurd hmi (by simp)
          · rw [hmg] at hmi
            obtain ⟨hext, hc1, hc2, hc3⟩ := ihP h ca va h₂ r hmg
            exact contStep h₂ r hext hc1 hc2 hc3 hmi

end HeapModel

/-! ## Claim theorems -/

/-- C1 counterexample: `core.deep_merge` is not pure.  On a heap whose base
dict (address 0) is empty and whose overlay dict (address 1) binds `a` to
the integer 1, the call mutates the base object in place: address 0 now
holds a one-field dict, and its structural value changes from `{}` to
`{a: 1}`. -/
theorem C1_counterexample :
    HeapModel.mergeInPlaceM 4
        [HeapModel.Obj.dict [], HeapModel.Obj.dict [("a", 2)],
          HeapModel.Obj.leaf (HeapModel.Prim.pint 1)] 0 1 =
      some [HeapModel.Obj.dict [("a", 3)], HeapModel.Obj.dict [("a", 2)],
        HeapModel.Obj.leaf (HeapModel.Prim.pint 1),
        HeapModel.Obj.leaf (HeapModel.Prim.pint 1)] ∧
    HeapModel.readTree 2
        [HeapModel.Obj.dict [], HeapModel.Obj.dict [("a", 2)],
          HeapModel.Obj.leaf (HeapModel.Prim.pint 1)] 0 = some (Val.vmap []) ∧
    HeapModel.readTree 3
        [HeapModel.Obj.dict [("a", 3)], HeapModel.Obj.dict [("a", 2)],
          HeapModel.Obj.leaf (HeapModel.Prim.pint 1),
          HeapModel.Obj.leaf (HeapModel.Prim.pint 1)] 0 =
      some (Val.vmap [("a", Val.vint 1)]) :=
  ⟨rfl, rfl, rfl⟩

namespace HeapModel

/-- C1 (amended): `merger.deep_merge` is pure and defensively copies.  On a
closed heap, a successful merge (a) leaves every pre-existing object
untouched, (b) hence leaves the structural value of every pre-existing
tree, in particular `base` and `overlay`, unchanged, (c) returns a freshly
allocated root, and (d) the merged result's structural value is unaffected
by any later mutation of pre-existing objects, in particular of the
original `overlay`.  (`core.deep_merge` mutates `base` in place, see the
counterexample; the spec's purity contract holds of `merger.py` only.) -/
theorem C1_merger_merge_pure (f : Nat) (h h' : Heap) (b o r : Nat)
    (hc : closedHeap h = true) (hm : mergeM f h b o = some (h', r)) :
    (∀ a, a < h.length → hget h' a = hget h a) ∧
    (∀ fu x, x < h.length → readTree fu h' x = readTree fu h x) ∧
    h.length ≤ r ∧
    (∀ h'' : Heap, (∀ x, h.length ≤ x → hget h'' x = hget h' x) →
      ∀ fu, readTree fu h'' r = readTree fu h' r) := by
  obtain ⟨hext, hr, hrlt, htin⟩ := (mergeSpec f).1 h b o h' r hm
  refine ⟨hext.2, ?_, hr, ?_⟩
  · intro fu x hx
    exact (read_agree fu).1 h h' 0 h.length x
      (fun y _ hy => hext.2 y hy) (closed_treeIn h hc fu x hx)
  · intro h'' hag fu
    exact (read_agree fu).1 h' h'' h.length h'.length r
      (fun y hy _ => hag y hy) (htin fu)

/-- Witness for C1 on a concrete closed heap: base dict at 0, overlay dict
at 2; after the merge the overlay object is untouched and overwriting it
does not change the structural value of the merged result. -/
theorem C1_witness :
    hget [Obj.dict [("x", 1)], Obj.leaf (Prim.pint 7), Obj.dict [("y", 1)],
        Obj.leaf (Prim.pint 7), Obj.dict [("x", 3), ("y", 5)], Obj.leaf (Prim.pint 7)] 2 =
      hget [Obj.dict [("x", 1)], Obj.leaf (Prim.pint 7), Obj.dict [("y", 1)]] 2 ∧
    readTree 3
        (hset [Obj.dict [("x", 1)], Obj.leaf (Prim.pint 7), Obj.dict [("y", 1)],
          Obj.leaf (Prim.pint 7), Obj.dict [("x", 3), ("y", 5)], Obj.leaf (Prim.pint 7)]
          2 (Obj.dict [])) 4 =
      readTree 3
        [Obj.dict [("x", 1)], Obj.leaf (Prim.pint 7), Obj.dict [("y", 1)],
          Obj.leaf (Prim.pint 7), Obj.dict [("x", 3), ("y", 5)], Obj.leaf (Prim.pint 7)] 4 := by
  refine ⟨?_, ?_⟩
  · exact (C1_merger_merge_pure 6
      [Obj.dict [("x", 1)], Obj.leaf (Prim.pint 7), Obj.dict [("y", 1)]]
      [Obj.dict [("x", 1)], Obj.leaf (Prim.pint 7), Obj.dict [("y", 1)],
        Obj.leaf (Prim.pint 7), Obj.dict [("x", 3), ("y", 5)], Obj.leaf (Prim.pint 7)]
      0 2 4 rfl rfl).1 2 (by decide)
  · exact (C1_merger_merge_pure 6
      [Obj.dict [("x", 1)], Obj.leaf (Prim.pint 7), Obj.dict [("y", 1)]]
      [Obj.dict [("x", 1)], Obj.leaf (Prim.pint 7), Obj.dict [("y", 1)],
        Obj.leaf (Prim.pint 7), Obj.dict [("x", 3), ("y", 5)], Obj.leaf (Prim.pint 7)]
      0 2 4 rfl rfl).2.2.2
      (hset [Obj.dict [("x", 1)], Obj.leaf (Prim.pint 7), Obj.dict [("y", 1)],
        Obj.leaf (Prim.pint 7), Obj.dict [("x", 3), ("y", 5)], Obj.leaf (Prim.pint 7)]
        2 (Obj.dict []))
      (fun x hx => hget_set_other _ x 2 (Obj.dict [])
        (by simp only [List.length_cons, List.length_nil] at hx; omega)) 3

end HeapModel

/-- C2 counterexample: under `manager.py` the fallback delimiter is `:`,
not `:-`, so `$\x7bVAR:-guest\x7d` with `VAR` unset resolves to `-guest`,
not `guest`; and under `core.py` a missing variable without fallback raises
`LiteConfError`, not `InterpolationError`. -/
theorem C2_counterexample :
    Manager._resolve_value [] (.vstr "$\x7bVAR:-guest\x7d") = .ok (.vstr "-guest") ∧
    "-guest" ≠ "guest" ∧
    Core.subString [] "$\x7bVAR\x7d" =
      .error (.liteConfError ("Environment variable " ++ quoted "VAR" ++
        " is required but not set.")) :=
  ⟨rfl, by decide, rfl⟩

/-- C2 (amended): each placeholder occurrence is resolved independently
against the lookup table: a bound name substitutes its value verbatim (even
the empty string); otherwise a present fallback clause substitutes its text
verbatim (possibly empty); otherwise resolution fails naming the missing
variable.  The fallback delimiter and the error differ per implementation:
`core.py` uses `:-` and raises `LiteConfError`, `manager.py` uses `:` and
raises `InterpolationError`.  Stated over every well-formed segment
decomposition rendered with the matching delimiter. -/
theorem C2_placeholder_resolution (env : List (String × String)) (segs : List Seg)
    (hwf : ∀ s ∈ segs, segWF s = true) :
    (Core.subString env (renderCore segs) =
      (match specResolve env segs with
       | .ok t => .ok t
       | .error n => .error (coreErrOf n))) ∧
    (Manager._resolve_value env (.vstr (renderMgr segs)) =
      (match specResolve env segs with
       | .ok t => .ok (.vstr t)
       | .error n => .error (mgrErrOf n))) := by
  constructor
  · show (reSub tryMatchCore (Core.resolveOcc env) (renderData [':', '-'] segs)).map
        String.mk = _
    rw [subst_render_core env segs hwf]
    cases specResolve env segs with
    | ok t => show Except.ok (String.mk t.data) = Except.ok t; rw [stringmk_data]
    | error n => rfl
  · show (reSub tryMatchMgr (Manager.resolveOcc env) (renderData [':'] segs)).map
        (fun l => Val.vstr (String.mk l)) = _
    rw [subst_render_mgr env segs hwf]
    cases specResolve env segs with
    | ok t =>
      show Except.ok (Val.vstr (String.mk t.data)) = Except.ok (Val.vstr t)
      rw [stringmk_data]
    | error n => rfl

/-- Witness for C2: `$\x7bVAR:-guest\x7d` with `VAR` unset resolves to
`guest` under `core.py`; `$\x7bVAR\x7d` with `VAR=secret` resolves to
`secret` under `manager.py`. -/
theorem C2_witness :
    Core.subString [] (renderCore [.lit "a", .ph "VAR" (some "guest"), .lit "b"]) =
      .ok "aguestb" ∧
    Manager._resolve_value [("VAR", "secret")] (.vstr (renderMgr [.ph "VAR" none])) =
      .ok (.vstr "secret") := by
  constructor
  · exact ((C2_placeholder_resolution []
      [.lit "a", .ph "VAR" (some "guest"), .lit "b"] (by decide)).1).trans rfl
  · exact ((C2_placeholder_resolution [("VAR", "secret")]
      [.ph "VAR" none] (by decide)).2).trans rfl

/-- Non-mapping, non-sequence values (scalars). -/
def isScalar : Val → Bool
  | .vmap _ => false
  | .vseq _ => false
  | _ => true

/-- C3: for every key of the overlay, `deep_merge` recurses when both the
base and overlay values at that key are mappings and otherwise takes the
overlay value wholesale; keys absent from the overlay keep their base
value; consequently a key scalar-valued in both maps to the overlay's value
in the result.  Stated for both implementations (they agree, see C10). -/
theorem C3_merge_key_characterisation (A B : Tree) (k : String)
    (hB : (B.map Prod.fst).Nodup) :
    (lookup (Merger.deep_merge A B) k =
      (match lookup B k with
       | some v => some (mergeVal (lookup A k) v)
       | none => lookup A k)) ∧
    (lookup (Core.deep_merge A B) k =
      (match lookup B k with
       | some v => some (mergeVal (lookup A k) v)
       | none => lookup A k)) ∧
    (∀ va vb, lookup A k = some va → lookup B k = some vb →
      isScalar va = true → isScalar vb = true →
      lookup (Merger.deep_merge A B) k = some vb) := by
  have hmain := merger_deep_merge_lookup B A k hB
  refine ⟨hmain, ?_, ?_⟩
  · rw [core_eq_merger_aux (sizeOf B) B A (Nat.le_refl _)]
    exact hmain
  · intro va vb hva hvb hsva hsvb
    rw [hmain, hvb, hva]
    cases vb <;> simp [isScalar] at hsvb ⊢ <;>
      cases va <;> simp [isScalar, mergeVal] at hsva ⊢

/-- Witness for C3 at concrete trees. -/
theorem C3_witness :
    lookup (Merger.deep_merge [("a", .vint 1), ("b", .vint 2)] [("a", .vint 9)]) "a" =
      some (.vint 9) := by
  have h := C3_merge_key_characterisation [("a", .vint 1), ("b", .vint 2)]
    [("a", .vint 9)] "a" (by decide)
  exact h.2.2 (.vint 1) (.vint 9) rfl rfl rfl rfl

/-- C9: the empty mapping is a left and right identity of deep merge, for
both implementations (Python dict keys are pairwise distinct, hence the
`Nodup` hypothesis). -/
theorem C9_merge_empty_identity (A : Tree) (hA : (A.map Prod.fst).Nodup) :
    Merger.deep_merge A [] = A ∧ Merger.deep_merge [] A = A ∧
    Core.deep_merge A [] = A ∧ Core.deep_merge [] A = A := by
  have h₂ : Merger.deep_merge [] A = A := by
    have := merger_deep_merge_append A [] hA (fun k _ => rfl)
    simpa using this
  refine ⟨merger_deep_merge_nil A, h₂, ?_, ?_⟩
  · rw [core_eq_merger_aux (sizeOf ([] : Tree)) [] A (Nat.le_refl _)]
    exact merger_deep_merge_nil A
  · rw [core_eq_merger_aux (sizeOf A) A [] (Nat.le_refl _)]
    exact h₂

/-- Witness for C9 at a concrete tree. -/
theorem C9_witness :
    Merger.deep_merge [] [("a", .vint 1), ("b", .vmap [("c", .vnull)])] =
      [("a", .vint 1), ("b", .vmap [("c", .vnull)])] :=
  (C9_merge_empty_identity [("a", .vint 1), ("b", .vmap [("c", .vnull)])] (by decide)).2.1

/-- C10: the in-place `deep_merge` of `core.py` and the copying
`deep_merge` of `merger.py` compute the same tree: the mapping left in
`base` by the former (its functional denotation) is structurally equal to
the mapping returned by the latter, so `LayeredConfigLoader` and
`ConfigManager` merge with identical precedence semantics. -/
theorem C10_deep_merge_implementations_agree (base overlay : Tree) :
    Core.deep_merge base overlay = Merger.deep_merge base overlay :=
  core_eq_merger_aux (sizeOf overlay) overlay base (Nat.le_refl _)

/-! ### Helper definitions and lemmas for C4, C5, C6, C7, C8 -/

/-- Mapping-typed values. -/
def isMapVal : Val → Bool
  | .vmap _ => true
  | _ => false

/-- The top-level keys one `apply_overrides` entry can write: the key itself
for mapping values and plain keys, the first dotted part and its sanitized
alias for dotted keys. -/
def touchedOf (key : String) : Val → List String
  | .vmap _ => [key]
  | _ =>
    if key.data.contains '.' then
      match pySplit key '.' with
      | p :: _ => [p, _sanitize_attribute p]
      | [] => []
    else [key]

/-- All top-level keys an override list can write. -/
def touchedKeys : List (String × Val) → List String
  | [] => []
  | (key, v) :: rest => touchedOf key v ++ touchedKeys rest

/-- The filesystem of the spec's layering example: a base layer with a
`prod` subdirectory and a `local` layer. -/
def exampleFS : FileSys :=
  [(["base", "service.yml"], .vmap [("url", .vstr "https://api.base"), ("retries", .vint 5)]),
   (["base", "prod", "service.yml"], .vmap [("url", .vstr "https://api.prod")]),
   (["local", "service.yml"], .vmap [("retries", .vint 3)])]

theorem specWalk_cons (p : String) (rest : List String) (cur : Val) :
    specWalk (p :: rest) cur =
      (match cur with
       | .vmap m =>
         (match lookup m p with
          | some v => specWalk rest v
          | none => none)
       | _ => none) := by
  cases cur with
  | vmap m => rcases hlk : lookup m p with _ | v <;> simp [specWalk, hlk]
  | vnull => rfl
  | vbool b => rfl
  | vint n => rfl
  | vfloat s => rfl
  | vstr s => rfl
  | vseq l => rfl

theorem getWalk_eq_specWalk : ∀ (parts : List String) (cur : Val),
    getWalk cur parts = specWalk parts cur := by
  intro parts
  induction parts with
  | nil => intro cur; rfl
  | cons p rest ih =>
    intro cur
    rw [specWalk_cons]
    cases cur with
    | vmap m =>
      show (match lookup m p with
            | some v => getWalk v rest
            | none => none) =
        (match lookup m p with
         | some v => specWalk rest v
         | none => none)
      cases lookup m p with
      | some v => exact ih v
      | none => rfl
    | vnull => rfl
    | vbool b => rfl
    | vint n => rfl
    | vfloat s => rfl
    | vstr s => rfl
    | vseq l => rfl

theorem int_cond_eq (text : String) :
    (pyIsDigit text || (startsDash text && pyIsDigit (String.mk text.data.tail))) =
      (!(if startsDash text then String.mk text.data.tail else text).data.isEmpty &&
        (if startsDash text then String.mk text.data.tail else text).data.all Char.isDigit) := by
  rcases hd : text.data with _ | ⟨c, rest⟩
  · have h1 : startsDash text = false := by simp [startsDash, hd]
    simp [pyIsDigit, h1, hd]
  · by_cases hc : c = '-'
    · subst hc
      have h1 : startsDash text = true := by simp [startsDash, hd]
      have h2 : pyIsDigit text = false := by
        have : ('-' : Char).isDigit = false := rfl
        simp [pyIsDigit, hd, this]
      simp [h1, h2, hd, pyIsDigit]
    · have h1 : startsDash text = false := by simp [startsDash, hd, hc]
      simp [h1, pyIsDigit]

theorem expand_foldl (e : String) :
    ∀ (layers : List (List String)) (acc : List (List String)),
      layers.foldl (fun acc layer => acc ++ [layer] ++ [layer ++ [e]]) acc =
        acc ++ layers.flatMap (fun l => [l, l ++ [e]]) := by
  intro layers
  induction layers with
  | nil => intro acc; simp
  | cons a as ih => intro acc; rw [List.foldl_cons, ih]; simp

theorem assign_dotted_preserves (v : Val) (k : String) :
    ∀ (parts : List String) (target t₂ : Tree),
      _assign_dotted target parts v = .ok t₂ →
      (∀ p, parts.head? = some p → k ≠ p ∧ k ≠ _sanitize_attribute p) →
      lookup t₂ k = lookup target k := by
  intro parts
  match parts with
  | [] =>
    intro target t₂ h _
    cases h
    rfl
  | [p] =>
    intro target t₂ h hk
    replace h : Except.ok (setKey target p v) = Except.ok t₂ := h
    cases h
    exact lookup_setKey_other target p k v (hk p rfl).1
  | p :: q :: rest =>
    intro target t₂ h hk
    replace h : (match getMap target p with
      | some m =>
        (match _assign_dotted m (q :: rest) v with
         | .ok m₂ => Except.ok (setKey target p (.vmap m₂))
         | .error e => Except.error e)
      | none =>
        match getMap target (_sanitize_attribute p) with
        | some m =>
          (match _assign_dotted m (q :: rest) v with
           | .ok m₂ => Except.ok (setKey target (_sanitize_attribute p) (.vmap m₂))
           | .error e => Except.error e)
        | none =>
          match lookup target p with
          | some _ => Except.error LcError.typeErr
          | none =>
            (match _assign_dotted [] (q :: rest) v with
             | .ok m₂ => Except.ok (setKey target p (.vmap m₂))
             | .error e => Except.error e)) = Except.ok t₂ := h
    rcases h1 : getMap target p with _ | m <;> rw [h1] at h
    · replace h : (match getMap target (_sanitize_attribute p) with
        | some m =>
          (match _assign_dotted m (q :: rest) v with
           | .ok m₂ => Except.ok (setKey target (_sanitize_attribute p) (.vmap m₂))
           | .error e => Except.error e)
        | none =>
          match lookup target p with
          | some _ => Except.error LcError.typeErr
          | none =>
            (match _assign_dotted [] (q :: rest) v with
             | .ok m₂ => Except.ok (setKey target p (.vmap m₂))
             | .error e => Except.error e)) = Except.ok t₂ := h
      rcases h2 : getMap target (_sanitize_attribute p) with _ | m <;> rw [h2] at h
      · replace h : (match lookup target p with
          | some _ => Except.error LcError.typeErr
          | none =>
            (match _assign_dotted [] (q :: rest) v with
             | .ok m₂ => Except.ok (setKey target p (.vmap m₂))
             | .error e => Except.error e)) = Except.ok t₂ := h
        rcases h3 : lookup target p with _ | w <;> rw [h3] at h
        · replace h : (match _assign_dotted [] (q :: rest) v with
            | .ok m₂ => Except.ok (setKey target p (.vmap m₂))
            | .error e => Except.error e) = Except.ok t₂ := h
          rcases h4 : _assign_dotted [] (q :: rest) v with e | m₂ <;> rw [h4] at h
          · simp at h
          · replace h : Except.ok (setKey target p (.vmap m₂)) = Except.ok t₂ := h
            cases h
            exact lookup_setKey_other target p k (.vmap m₂) (hk p rfl).1
        · simp at h
      · replace h : (match _assign_dotted m (q :: rest) v with
          | .ok m₂ => Except.ok (setKey target (_sanitize_attribute p) (.vmap m₂))
          | .error e => Except.error e) = Except.ok t₂ := h
        rcases h3 : _assign_dotted m (q :: rest) v with e | m₂ <;> rw [h3] at h
        · simp at h
        · replace h : Except.ok (setKey target (_sanitize_attribute p) (.vmap m₂)) =
            Except.ok t₂ := h
          cases h
          exact lookup_setKey_other target (_sanitize_attribute p) k (.vmap m₂) (hk p rfl).2
    · replace h : (match _assign_dotted m (q :: rest) v with
        | .ok m₂ => Except.ok (setKey target p (.vmap m₂))
        | .error e => Except.error e) = Except.ok t₂ := h
      rcases h2 : _assign_dotted m (q :: rest) v with e | m₂ <;> rw [h2] at h
      · simp at h
      · replace h : Except.ok (setKey target p (.vmap m₂)) = Except.ok t₂ := h
        cases h
        exact lookup_setKey_other target p k (.vmap m₂) (hk p rfl).1

theorem applyItem_nonmap (target : Tree) (key : String) (v : Val)
    (hv : isMapVal v = false) :
    applyItem target key v =
      (if key.data.contains '.' then _assign_dotted target (pySplit key '.') v
       else .ok (setKey target key v)) := by
  cases v with
  | vmap m => simp [isMapVal] at hv
  | vnull => rfl
  | vbool b => rfl
  | vint n => rfl
  | vfloat s => rfl
  | vstr s => rfl
  | vseq l => rfl

theorem touchedOf_nonmap (key : String) (v : Val) (hv : isMapVal v = false) :
    touchedOf key v =
      (if key.data.contains '.' then
        (match pySplit key '.' with
         | p :: _ => [p, _sanitize_attribute p]
         | [] => [])
       else [key]) := by
  cases v with
  | vmap m => simp [isMapVal] at hv
  | vnull => rfl
  | vbool b => rfl
  | vint n => rfl
  | vfloat s => rfl
  | vstr s => rfl
  | vseq l => rfl

theorem applyItem_preserves (k : String) (v : Val) (target : Tree) (key : String) (t₂ : Tree)
    (h : applyItem target key v = .ok t₂) (hk : k ∉ touchedOf key v) :
    lookup t₂ k = lookup target k := by
  rcases hmv : isMapVal v with _ | _
  · rw [applyItem_nonmap target key v hmv] at h
    rw [touchedOf_nonmap key v hmv] at hk
    by_cases hdot : key.data.contains '.' = true
    · rw [if_pos hdot] at h
      rw [if_pos hdot] at hk
      refine assign_dotted_preserves v k (pySplit key '.') target t₂ h ?_
      intro p hp
      rcases hsp : pySplit key '.' with _ | ⟨p₀, ps⟩
      · rw [hsp] at hp; cases hp
      · rw [hsp] at hp
        replace hp : some p₀ = some p := hp
        cases hp
        rw [hsp] at hk
        constructor
        · intro he; exact hk (by rw [he]; simp)
        · intro he; exact hk (by rw [he]; simp)
    · rw [if_neg hdot] at h
      rw [if_neg hdot] at hk
      replace h : Except.ok (setKey target key v) = Except.ok t₂ := h
      cases h
      refine lookup_setKey_other target key k v ?_
      intro hek
      exact hk (by rw [hek]; simp)
  · obtain ⟨m, rfl⟩ : ∃ m, v = .vmap m := by
      cases v <;> first | exact ⟨_, rfl⟩ | simp [isMapVal] at hmv
    have hkk : k ≠ key := by
      intro hek
      exact hk (by simp [touchedOf, hek])
    replace h : (match lookup target key with
      | some (.vmap sm) =>
        (match apply_overrides sm m with
         | .ok sm₂ => Except.ok (setKey target key (.vmap sm₂))
         | .error e => Except.error e)
      | some _ =>
        Except.error (.liteConfError
          ("Cannot override non-mapping config section " ++ quoted key ++ " with a mapping."))
      | none =>
        (match apply_overrides [] m with
         | .ok sm₂ => Except.ok (setKey target key (.vmap sm₂))
         | .error e => Except.error e)) = Except.ok t₂ := h
    rcases h1 : lookup target key with _ | w <;> rw [h1] at h
    · replace h : (match apply_overrides [] m with
        | .ok sm₂ => Except.ok (setKey target key (.vmap sm₂))
        | .error e => Except.error e) = Except.ok t₂ := h
      rcases h2 : apply_overrides [] m with e | sm₂ <;> rw [h2] at h
      · simp at h
      · replace h : Except.ok (setKey target key (.vmap sm₂)) = Except.ok t₂ := h
        cases h
        exact lookup_setKey_other target key k (.vmap sm₂) hkk
    · cases w with
      | vmap sm =>
        replace h : (match apply_overrides sm m with
          | .ok sm₂ => Except.ok (setKey target key (.vmap sm₂))
          | .error e => Except.error e) = Except.ok t₂ := h
        rcases h2 : apply_overrides sm m with e | sm₂ <;> rw [h2] at h
        · simp at h
        · replace h : Except.ok (setKey target key (.vmap sm₂)) = Except.ok t₂ := h
          cases h
          exact lookup_setKey_other target key k (.vmap sm₂) hkk
      | vnull => simp at h
      | vbool b => simp at h
      | vint n => simp at h
      | vfloat s => simp at h
      | vstr s => simp at h
      | vseq l => simp at h

theorem apply_overrides_preserves : ∀ (ov : List (String × Val)) (target t₂ : Tree)
    (k : String), apply_overrides target ov = .ok t₂ → k ∉ touchedKeys ov →
    lookup t₂ k = lookup target k := by
  intro ov
  induction ov with
  | nil =>
    intro target t₂ k h _
    cases h
    rfl
  | cons kv rest ih =>
    obtain ⟨key, v⟩ := kv
    intro target t₂ k h hk
    replace h : (match applyItem target key v with
      | .ok t₃ => apply_overrides t₃ rest
      | .error e => Except.error e) = Except.ok t₂ := h
    rcases h1 : applyItem target key v with e | t₃ <;> rw [h1] at h
    · simp at h
    · have hk1 : k ∉ touchedOf key v := fun hm => hk (by simp [touchedKeys, hm])
      have hk2 : k ∉ touchedKeys rest := fun hm => hk (by simp [touchedKeys, hm])
      exact (ih t₃ t₂ k h hk2).trans (applyItem_preserves k v target key t₃ h1 hk1)

theorem intercalate_go_extend (s : String) :
    ∀ (l : List String) (acc : String),
      ∃ post : String, String.intercalate.go acc s l = acc ++ post := by
  intro l
  induction l with
  | nil =>
    intro acc
    exact ⟨"", by show acc = acc ++ ""; simp⟩
  | cons a as ih =>
    intro acc
    obtain ⟨post, hp⟩ := ih (acc ++ s ++ a)
    exact ⟨s ++ a ++ post, by
      show String.intercalate.go (acc ++ s ++ a) s as = _
      rw [hp]
      simp [String.append_assoc]⟩

theorem intercalate_go_mem (s x : String) :
    ∀ (l : List String) (acc : String), x ∈ l →
      ∃ pre post : String, String.intercalate.go acc s l = pre ++ x ++ post := by
  intro l
  induction l with
  | nil => intro acc h; exact absurd h (List.not_mem_nil x)
  | cons a as ih =>
    intro acc h
    rcases List.mem_cons.mp h with rfl | h₂
    · obtain ⟨post, hp⟩ := intercalate_go_extend s as (acc ++ s ++ x)
      exact ⟨acc ++ s, post, by
        show String.intercalate.go (acc ++ s ++ x) s as = _
        rw [hp]⟩
    · obtain ⟨pre, post, hp⟩ := ih (acc ++ s ++ a) h₂
      exact ⟨pre, post, by
        show String.intercalate.go (acc ++ s ++ a) s as = _
        rw [hp]⟩

theorem intercalate_mem_split (x : String) (l : List String) (h : x ∈ l) :
    ∃ pre post : String, String.intercalate ", " l = pre ++ x ++ post := by
  cases l with
  | nil => exact absurd h (List.not_mem_nil x)
  | cons a as =>
    rcases List.mem_cons.mp h with rfl | h₂
    · obtain ⟨post, hp⟩ := intercalate_go_extend ", " as x
      exact ⟨"", post, by
        show String.intercalate.go x ", " as = _
        rw [hp]
        simp [String.empty_append]⟩
    · obtain ⟨pre, post, hp⟩ := intercalate_go_mem ", " x as a h₂
      exact ⟨pre, post, by
        show String.intercalate.go a ", " as = _
        rw [hp]⟩

theorem foldlM_loadDir_empty (fs : FileSys) :
    ∀ (dirs : List (List String)) (acc : Tree × Nat),
      (∀ d ∈ dirs, sortedConfigFiles fs d = []) →
      dirs.foldlM (fun acc d => loadDir fs acc d) acc = .ok acc := by
  intro dirs
  induction dirs with
  | nil => intro acc _; rfl
  | cons d ds ih =>
    intro acc hall
    rw [List.foldlM_cons]
    have hd : loadDir fs acc d = .ok acc := by
      unfold loadDir
      rw [hall d (by simp)]
      rfl
    rw [hd]
    show (ds.foldlM (fun acc d => loadDir fs acc d) acc) = .ok acc
    exact ih acc (fun d₂ hd₂ => hall d₂ (by simp [hd₂]))

/-- C4: `ConfigView.get` walks the dotted path segment by segment through
nested mappings only, returning the default as soon as a segment is missing
or an intermediate value is not a mapping; with a coercion target it
returns the coerced value on success and the default on coercion failure;
boolean coercion of a string maps exactly the tokens `1/true/yes/on` to
`true` and `0/false/no/off` to `false`, case-insensitively (after
stripping). -/
theorem C4_view_get_walks_and_coerces (data : Tree) (dotted : String) (default : Val)
    (co : Option Coercer) (hne : dotted ≠ "") :
    (ConfigView.get data dotted default co =
      .ok (match specWalk (pySplit dotted '.') (.vmap data) with
           | none => default
           | some cur =>
             match co with
             | none => cur
             | some c =>
               match applyCoercer c cur with
               | some w => w
               | none => default)) ∧
    (∀ s : String, _coerce_bool (.vstr s) =
      (if pyLower (pyStrip s) ∈ trueTokens then some true
       else if pyLower (pyStrip s) ∈ falseTokens then some false
       else none)) := by
  constructor
  · simp only [ConfigView.get, if_neg hne, getWalk_eq_specWalk]
    cases specWalk (pySplit dotted '.') (.vmap data) with
    | none => rfl
    | some cur =>
      cases co with
      | none => rfl
      | some c =>
        show (match applyCoercer c cur with
              | some w => Except.ok w
              | none => Except.ok default) =
          Except.ok (match applyCoercer c cur with
                     | some w => w
                     | none => default)
        cases applyCoercer c cur <;> rfl
  · intro s
    show boolTokenOf (pyLower (pyStrip s)) = _
    unfold boolTokenOf
    by_cases h₁ : pyLower (pyStrip s) ∈ trueTokens
    · rw [if_pos (List.elem_iff.mpr h₁), if_pos h₁]
    · rw [if_neg (fun hc => h₁ (List.elem_iff.mp hc)), if_neg h₁]
      by_cases h₂ : pyLower (pyStrip s) ∈ falseTokens
      · rw [if_pos (List.elem_iff.mpr h₂), if_pos h₂]
      · rw [if_neg (fun hc => h₂ (List.elem_iff.mp hc)), if_neg h₂]

/-- Witness for C4: a stripped, case-folded boolean coercion, and the
default returned on a non-mapping intermediate. -/
theorem C4_witness :
    ConfigView.get [("flag", .vstr " Yes ")] "flag" (.vint 9) (some .cbool) =
      .ok (.vbool true) ∧
    ConfigView.get [("a", .vint 1)] "a.b.c" (.vstr "dflt") none = .ok (.vstr "dflt") := by
  constructor
  · exact ((C4_view_get_walks_and_coerces [("flag", .vstr " Yes ")] "flag" (.vint 9)
      (some .cbool) (by decide)).1).trans rfl
  · exact ((C4_view_get_walks_and_coerces [("a", .vint 1)] "a.b.c" (.vstr "dflt") none
      (by decide)).1).trans rfl

/-- C5: with an active environment name each layer is followed immediately
by its environment subdirectory, and later directories override earlier
ones field by field: on the spec's example (`env = prod`, layers
`[base, local]`), `service.url` comes from `base/prod/service.yml` and
`service.retries` from `local/service.yml`. -/
theorem C5_layer_expansion_and_precedence :
    (∀ (layers : List (List String)) (e : String) (g : Option String), e ≠ "" →
      _expand_layers layers (some e) g = layers.flatMap (fun l => [l, l ++ [e]])) ∧
    _expand_layers [["base"], ["local"]] (some "prod") none =
      [["base"], ["base", "prod"], ["local"], ["local", "prod"]] ∧
    LayeredConfigLoader.load exampleFS [["base"], ["local"]] (some "prod") none [] [] =
      .ok [("prod", .vmap [("service", .vmap [("url", .vstr "https://api.prod")])]),
        ("service", .vmap [("url", .vstr "https://api.prod"), ("retries", .vint 3)])] := by
  refine ⟨?_, rfl, rfl⟩
  intro layers e g he
  have hp : pyOr (some e) g = some e := by simp [pyOr, he]
  have ht : truthy (some e) = true := by simp [truthy, he]
  simp only [_expand_layers, hp, ht, if_pos, Option.getD_some]
  exact expand_foldl e layers []

/-- Witness for C5 at a concrete layer list and environment name. -/
theorem C5_witness :
    _expand_layers [["conf"]] (some "dev") none = [["conf"], ["conf", "dev"]] :=
  (C5_layer_expansion_and_precedence.1 [["conf"]] "dev" none (by decide)).trans rfl

/-- C6: a mapping override of a key whose existing value is not a mapping
fails with `LiteConfError` naming the key (never silently overwrites);
dotted keys are split on `.` and assigned through intermediate mappings,
created as needed; keys outside the touched set keep their previous
values. -/
theorem C6_apply_overrides_validation :
    (∀ (target : Tree) (key : String) (m : List (String × Val)) (w : Val)
        (rest : List (String × Val)),
      lookup target key = some w → isMapVal w = false →
      apply_overrides target ((key, .vmap m) :: rest) =
        .error (.liteConfError
          ("Cannot override non-mapping config section " ++ quoted key ++
            " with a mapping."))) ∧
    apply_overrides [("database", .vmap [("host", .vstr "localhost"), ("port", .vint 5432)])]
        [("database.port", .vint 6543)] =
      .ok [("database", .vmap [("host", .vstr "localhost"), ("port", .vint 6543)])] ∧
    apply_overrides [] [("a.b.c", .vint 1)] =
      .ok [("a", .vmap [("b", .vmap [("c", .vint 1)])])] ∧
    (∀ (target : Tree) (ov : List (String × Val)) (t₂ : Tree) (k : String),
      apply_overrides target ov = .ok t₂ → k ∉ touchedKeys ov →
      lookup t₂ k = lookup target k) := by
  refine ⟨?_, rfl, rfl, fun target ov => apply_overrides_preserves ov target⟩
  intro target key m w rest hw hnm
  show (match applyItem target key (.vmap m) with
        | .ok t₃ => apply_overrides t₃ rest
        | .error e => Except.error e) = _
  have hai : applyItem target key (.vmap m) =
      .error (.liteConfError
        ("Cannot override non-mapping config section " ++ quoted key ++
          " with a mapping.")) := by
    show (match lookup target key with
          | some (.vmap sm) =>
            (match apply_overrides sm m with
             | .ok sm₂ => Except.ok (setKey target key (.vmap sm₂))
             | .error e => Except.error e)
          | some _ =>
            Except.error (.liteConfError
              ("Cannot override non-mapping config section " ++ quoted key ++
                " with a mapping."))
          | none =>
            (match apply_overrides [] m with
             | .ok sm₂ => Except.ok (setKey target key (.vmap sm₂))
             | .error e => Except.error e)) = _
    rw [hw]
    cases w with
    | vmap sm => simp [isMapVal] at hnm
    | vnull => rfl
    | vbool b => rfl
    | vint n => rfl
    | vfloat s => rfl
    | vstr s => rfl
    | vseq l => rfl
  rw [hai]

/-- Witness for C6: overriding an integer-valued key with a mapping fails,
and a dotted override leaves an untouched sibling key unchanged. -/
theorem C6_witness :
    apply_overrides [("port", .vint 80)] [("port", .vmap [("x", .vnull)])] =
      .error (.liteConfError
        ("Cannot override non-mapping config section " ++ quoted "port" ++
          " with a mapping.")) ∧
    lookup [("keep", .vint 1),
        ("database", .vmap [("host", .vstr "localhost"), ("port", .vint 6543)])] "keep" =
      lookup [("keep", .vint 1),
        ("database", .vmap [("host", .vstr "localhost"), ("port", .vint 5432)])] "keep" := by
  constructor
  · exact C6_apply_overrides_validation.1 [("port", .vint 80)] "port" [("x", .vnull)]
      (.vint 80) [] rfl rfl
  · exact C6_apply_overrides_validation.2.2.2
      [("keep", .vint 1), ("database", .vmap [("host", .vstr "localhost"), ("port", .vint 5432)])]
      [("database.port", .vint 6543)]
      [("keep", .vint 1), ("database", .vmap [("host", .vstr "localhost"), ("port", .vint 6543)])]
      "keep" rfl (by decide)

/-- C7: `sources._coerce_env_value` applies type inference in the fixed
order boolean tokens, integer (optional leading minus then all digits),
float, raw string — stated as agreement with the spec-modelled order — and
in particular `1` and `0` become booleans, never integers. -/
theorem C7_env_type_inference_order :
    (∀ s : String, _coerce_env_value s = specEnvCoerce s) ∧
    _coerce_env_value "1" = .vbool true ∧ _coerce_env_value "0" = .vbool false ∧
    _coerce_env_value "7" = .vint 7 ∧ _coerce_env_value "-3" = .vint (-3) ∧
    _coerce_env_value "2.5" = .vfloat "2.5" ∧ _coerce_env_value "hello" = .vstr "hello" := by
  refine ⟨?_, rfl, rfl, rfl, rfl, rfl, rfl⟩
  intro s
  simp only [_coerce_env_value, specEnvCoerce]
  rw [int_cond_eq]

/-- C8: when every expanded directory contains zero qualifying
configuration files, `LayeredConfigLoader.load` fails with a
configuration-not-found error — no partially built tree is returned — and
the message names every searched directory. -/
theorem C8_no_files_not_found_error (fs : FileSys) (layers : List (List String))
    (env g : Option String) (environ : List (String × String)) (ov : List (String × Val))
    (hempty : ∀ d ∈ _expand_layers layers env g, sortedConfigFiles fs d = []) :
    ∃ msg, LayeredConfigLoader.load fs layers env g environ ov =
        .error (.configNotFoundError msg) ∧
      ∀ d ∈ _expand_layers layers env g, ∃ pre post : String,
        msg = pre ++ pathString d ++ post := by
  by_cases hie : (_expand_layers layers env g).isEmpty = true
  · refine ⟨"No configuration folders found.", ?_, ?_⟩
    · show (if (_expand_layers layers env g).isEmpty then _ else _) = _
      rw [if_pos hie]
    · intro d hd
      rw [List.isEmpty_iff.mp hie] at hd
      exact absurd hd (List.not_mem_nil d)
  · refine ⟨"No configuration files found inside: " ++
      String.intercalate ", " ((_expand_layers layers env g).map pathString), ?_, ?_⟩
    · show (if (_expand_layers layers env g).isEmpty then _ else _) = _
      rw [if_neg hie, foldlM_loadDir_empty fs (_expand_layers layers env g) ([], 0) hempty]
      rfl
    · intro d hd
      obtain ⟨pre, post, hp⟩ := intercalate_mem_split (pathString d)
        ((_expand_layers layers env g).map pathString) (List.mem_map_of_mem pathString hd)
      exact ⟨"No configuration files found inside: " ++ pre, post, by
        rw [hp, String.append_assoc, String.append_assoc, String.append_assoc]⟩

/-- Witness for C8: an empty filesystem makes every directory empty, and
the load fails with a configuration-not-found error naming each searched
directory. -/
theorem C8_witness :
    ∃ msg, LayeredConfigLoader.load [] [["conf"]] none none [] [] =
        .error (.configNotFoundError msg) ∧
      ∀ d ∈ _expand_layers [["conf"]] none none, ∃ pre post : String,
        msg = pre ++ pathString d ++ post :=
  C8_no_files_not_found_error [] [["conf"]] none none [] [] (fun _ _ => rfl)

end LiteConf
